import Mathlib

/-!
# Verification of the picire Delta Debugging core

A shallow embedding of the reduction core of the picire repository:
the sequential DD engine (`picire/dd.py`), the Zeller splitter
(`picire/splitter.py`), the combined subset/complement iterator
(`picire/iterator.py`), the outcome caches (`picire/cache.py`) and the
limit/stop condition (`picire/limit_reduction.py`), together with proofs
about them.

Atoms are modelled as natural numbers (atom indices into the original
input), configurations as `List Nat`, partitions as `List (List Nat)`.
Python dictionaries are modelled extensionally as functions into `Option`.
-/

namespace Picire

/-- `Outcome` from `picire/outcome.py`: the PASS/FAIL sum type. -/
inductive Outcome : Type where
  | PASS : Outcome
  | FAIL : Outcome
deriving DecidableEq, Repr

/-! ## Splitters (`picire/splitter.py`) -/

/-- The slicing loop of `ZellerSplit.__call__`: given the flattened config
and the number `r` of chunks still to produce, slice off
`(remaining length) / r` atoms and recurse.  In the source, the chunk for
step `i` (of `n`) is `config[start:stop]` with
`stop = start + (length - start) // (n - i)`; here the suffix
`config.drop start` is passed explicitly, and `r = n - i`. -/
def sliceLoop (config : List Nat) : Nat → List (List Nat)
  | 0 => []
  | r + 1 =>
    let s := config.length / (r + 1)
    config.take s :: sliceLoop (config.drop s) r

/-- `ZellerSplit.__call__` with split ratio `nfac` (constructor parameter
`n`, default 2): flatten the partition, let `n = min(length, len(subsets) *
nfac)`, and produce `n` chunks by the iterative slicing loop. -/
def zellerSplit (nfac : Nat) (subsets : List (List Nat)) : List (List Nat) :=
  let config := subsets.flatten
  let length := config.length
  let n := min length (subsets.length * nfac)
  sliceLoop config n

/-! ## Iterators (`picire/iterator.py`) -/

/-- `forward`: numbers `0 .. n-1`. -/
def forwardIt (n : Nat) : List Nat := List.range n

/-- `backward`: numbers `n-1 .. 0`. -/
def backwardIt (n : Nat) : List Nat := (List.range n).reverse

/-- `skip`: the empty sequence. -/
def skipIt (_ : Nat) : List Nat := []

/-- `CombinedIterator.__call__`: yields the subset indices `i` as-is and
the complement indices as `-i - 1`, subsets first when `subset_first`,
complements first otherwise. -/
def combinedIterator (subset_first : Bool) (subset_iterator complement_iterator : Nat → List Nat)
    (n : Nat) : List Int :=
  if subset_first then
    (subset_iterator n).map Int.ofNat ++ (complement_iterator n).map (fun i => -(i : Int) - 1)
  else
    (complement_iterator n).map (fun i => -(i : Int) - 1) ++ (subset_iterator n).map Int.ofNat

/-- The default `CombinedIterator()`: subsets first, `forward` on both
sides. -/
def defaultIterator (n : Nat) : List Int :=
  combinedIterator true forwardIt forwardIt n

/-! ## Outcome caches (`picire/cache.py`)

Python `dict`s are modelled extensionally as functions into `Option`
(absent key = `none`); the trie of `ConfigCache` keeps its node dictionary
as such a function as well. -/

/-- A node of the `ConfigCache` trie (`ConfigCache._Entry`): an optional
outcome (`result`) for the config ending at this node, and a dictionary
from atom to child node (`tail`). -/
inductive CEntry : Type where
  | mk : Option Outcome → (Nat → Option CEntry) → CEntry

/-- An empty trie node (`_Entry()`). -/
def CEntry.empty : CEntry := .mk none (fun _ => none)

/-- `ConfigCache.lookup`: walk the trie along the atoms of the config and
return the outcome stored at the final node, `none` if the path does not
exist. -/
def CEntry.find : CEntry → List Nat → Option Outcome
  | .mk r _, [] => r
  | .mk _ t, c :: rest =>
    match t c with
    | none => none
    | some e => CEntry.find e rest

/-- The insertion walk of `ConfigCache.add`: extend the trie along the
atoms of the config (creating fresh nodes where missing) and store the
result at the final node. -/
def CEntry.addPath : CEntry → List Nat → Outcome → CEntry
  | .mk _ t, [], res => .mk (some res) t
  | .mk r t, c :: rest, res =>
    let child := (t c).getD CEntry.empty
    .mk r (fun k => if k = c then some (child.addPath rest res) else t k)

/-- `ConfigCache._evict`: at depth `length` clear the node's children,
above that depth recurse into every child. -/
def CEntry.evict : Nat → CEntry → CEntry
  | 0, .mk r _ => .mk r (fun _ => none)
  | l + 1, .mk r t => .mk r (fun k => (t k).map (CEntry.evict l))

/-- `ConfigCache.add`: store the outcome when it is PASS or `cache_fail`
is set; then, when the outcome is FAIL and `evict_after_fail` is set,
evict everything below depth `len(config)`. -/
def configCacheAdd (cache_fail evict_after_fail : Bool) (root : CEntry)
    (config : List Nat) (result : Outcome) : CEntry :=
  let root1 := if result = Outcome.PASS ∨ cache_fail = true then root.addPath config result else root
  if result = Outcome.FAIL ∧ evict_after_fail = true then CEntry.evict config.length root1 else root1

/-- `ContentCache`'s container: artifact content (the test built from a
config, modelled as a list of atoms) to outcome. -/
def ContentContainer : Type := List Nat → Option Outcome

/-- `ContentCache.add` with test builder `builder`: skip entirely when the
result is FAIL and neither `cache_fail` nor `evict_after_fail` is set;
store the outcome under the built content when it is PASS or `cache_fail`
is set; when the result is FAIL and `evict_after_fail` is set, delete all
entries whose content is longer than the added one. -/
def contentCacheAdd (builder : List Nat → List Nat) (cache_fail evict_after_fail : Bool)
    (container : ContentContainer) (config : List Nat) (result : Outcome) : ContentContainer :=
  if result = Outcome.FAIL ∧ cache_fail = false ∧ evict_after_fail = false then container
  else
    let test_content := builder config
    let container1 : ContentContainer :=
      if result = Outcome.PASS ∨ cache_fail = true then
        fun c => if c = test_content then some result else container c
      else container
    if result = Outcome.FAIL ∧ evict_after_fail = true then
      fun c => if test_content.length < c.length then none else container1 c
    else container1

/-- `ContentCache.lookup`: look the built content up in the container. -/
def contentCacheLookup (builder : List Nat → List Nat) (container : ContentContainer)
    (config : List Nat) : Option Outcome :=
  container (builder config)

/-- `ContentCache.clear` is a no-op (`pass`). -/
def contentCacheClear (container : ContentContainer) : ContentContainer :=
  container

/-- `ContentHashCache`'s container: hash of the artifact content to
(outcome, artifact length). -/
def ContentHashContainer : Type := Nat → Option (Outcome × Nat)

/-- `ContentHashCache.__init__`: the `cache_fail` argument is ignored (it
is forced to `False`); only `evict_after_fail` is retained. -/
def contentHashCacheInit (_cache_fail evict_after_fail : Bool) : Bool × ContentHashContainer :=
  (evict_after_fail, fun _ => none)

/-- `ContentHashCache.add`: skip when the result is FAIL and
`evict_after_fail` is unset; store `(result, length)` under the content
hash only when the result is PASS; when the result is FAIL and
`evict_after_fail` is set, delete all entries whose recorded length is
greater than the added content's length. -/
def contentHashCacheAdd (hash : List Nat → Nat) (builder : List Nat → List Nat)
    (evict_after_fail : Bool) (container : ContentHashContainer)
    (config : List Nat) (result : Outcome) : ContentHashContainer :=
  if result = Outcome.FAIL ∧ evict_after_fail = false then container
  else
    let test_content := builder config
    let length := test_content.length
    let container1 : ContentHashContainer :=
      if result = Outcome.PASS then
        fun h => if h = hash test_content then some (result, length) else container h
      else container
    if result = Outcome.FAIL ∧ evict_after_fail = true then
      fun h =>
        match container1 h with
        | some (r, l) => if length < l then none else some (r, l)
        | none => none
    else container1

/-- `ContentHashCache.lookup`: look the hash of the built content up and
project the outcome. -/
def contentHashCacheLookup (hash : List Nat → Nat) (builder : List Nat → List Nat)
    (container : ContentHashContainer) (config : List Nat) : Option Outcome :=
  match container (hash (builder config)) with
  | some (r, _) => some r
  | none => none

/-- `ContentHashCache.clear` is a no-op (`pass`). -/
def contentHashCacheClear (container : ContentHashContainer) : ContentHashContainer :=
  container

/-! ## Stop condition (`picire/limit_reduction.py`) -/

/-- The state of a `LimitReduction` object: the configured deadline as a
timestamp (`_deadline_timestamp`, `none` when no deadline was configured),
the configured test budget (`_max_tests`), and the remaining budget
(`_tests_left`). -/
structure LimitReduction : Type where
  deadline : Option Int
  max_tests : Option Int
  tests_left : Int
deriving DecidableEq, Repr

/-- `LimitReduction.__init__` with a timestamp deadline: the remaining
budget starts at `max_tests`. -/
def LimitReduction.init (deadline max_tests : Option Int) : LimitReduction :=
  ⟨deadline, max_tests, max_tests.getD 0⟩

/-- `LimitReduction.__call__` at current time `now`: raise
(`none`) when a deadline is configured and `now` is at or past it; raise
when a budget is configured and the remaining count is ≤ 0; otherwise
decrement the remaining budget (when configured) and return the updated
state. -/
def limitCall (now : Int) (s : LimitReduction) : Option LimitReduction :=
  if s.deadline.isSome ∧ s.deadline.getD 0 ≤ now then none
  else if s.max_tests.isSome then
    if s.tests_left ≤ 0 then none
    else some { s with tests_left := s.tests_left - 1 }
  else some s

/-! ## The sequential DD engine (`picire/dd.py`)

The engine is parametrised over the tester (a deterministic function from
configs to outcomes), an abstract cache (state type `σ` with `lookup` and
`add` operations), the config iterator, the splitter, and the stop
callable (state type `τ`; returning `none` models raising
`ReductionStopped`).  Exceptions are modelled as explicit result
constructors; the tester-call trace and the partitions passed to the
reduce step are recorded alongside the result. -/

/-- The strategy/collaborator parameters of a `DD` object. -/
structure DDParams (σ τ : Type) : Type where
  /-- The tester (`self._test`), a deterministic function of the config. -/
  test : List Nat → Outcome
  /-- `self._cache.lookup`. -/
  lookup : σ → List Nat → Option Outcome
  /-- `self._cache.add`. -/
  addc : σ → List Nat → Outcome → σ
  /-- `self._config_iterator`, already in the signed-index encoding. -/
  iter : Nat → List Int
  /-- `self._split`. -/
  split : List (List Nat) → List (List Nat)
  /-- `self._stop` (`none` when absent is modelled by a stop that never
  raises); returning `none` raises `ReductionStopped`. -/
  stop : τ → Option τ
  /-- `self._dd_star`. -/
  ddStar : Bool

/-- `DD.__init__` keyword defaults (`dd.py`): `dd_star` defaults to
`False`. -/
structure DDInitArgs : Type where
  dd_star : Bool := false

/-- Result of the candidate loop of `DD._reduce_config`: `found` carries
the final `fvalue` (the signed index of the first FAIL-ing candidate, or
`n` when none was found) plus the updated cache, stop state and the list
of configs that were passed to the tester; `stop` models
`ReductionStopped` escaping from the loop; `err` models any other
exception (an index error on a misbehaving iterator). -/
inductive RCFound (σ τ : Type) : Type where
  | found : Int → σ → τ → List (List Nat) → RCFound σ τ
  | stop : List (List Nat) → RCFound σ τ
  | err : List (List Nat) → RCFound σ τ

/-- Result of `DD._reduce_config`: `res next offset cache st trace` is a
normal return of `(next, offset)`. -/
inductive RCOut (σ τ : Type) : Type where
  | res : Option (List (List Nat)) → Nat → σ → τ → List (List Nat) → RCOut σ τ
  | stop : List (List Nat) → RCOut σ τ
  | err : List (List Nat) → RCOut σ τ

/-- The candidate loop of `DD._reduce_config`: for each signed index `i`
from the iterator, build the candidate config (`subsets[i]` for `i ≥ 0`;
for `i < 0`, the complement of subset `(-i - 1 + complement_offset) % n`,
with the running index re-encoded as a negative value); consult the
cache; on a miss invoke the stop callable and then the tester, recording
the outcome in the cache; break with `fvalue = i` at the first FAIL. -/
def rcLoop {σ τ : Type} (P : DDParams σ τ) (subsets : List (List Nat)) (n offset : Nat)
    (cache : σ) (st : τ) : List Int → RCFound σ τ
  | [] => .found (n : Int) cache st []
  | i :: rest =>
    if 0 ≤ i then
      if i.toNat < n then
        let config_set := subsets.getD i.toNat []
        match P.lookup cache config_set with
        | some outcome =>
          if outcome = Outcome.FAIL then .found i cache st []
          else rcLoop P subsets n offset cache st rest
        | none =>
          match P.stop st with
          | none => .stop []
          | some st' =>
            let outcome := P.test config_set
            let cache' := P.addc cache config_set outcome
            if outcome = Outcome.FAIL then .found i cache' st' [config_set]
            else
              match rcLoop P subsets n offset cache' st' rest with
              | .found f c s t => .found f c s (config_set :: t)
              | .stop t => .stop (config_set :: t)
              | .err t => .err (config_set :: t)
      else .err []
    else
      if n = 0 then .err []
      else
        let k := ((-i - 1).toNat + offset) % n
        let config_set := (subsets.eraseIdx k).flatten
        let i' := -(k : Int) - 1
        match P.lookup cache config_set with
        | some outcome =>
          if outcome = Outcome.FAIL then .found i' cache st []
          else rcLoop P subsets n offset cache st rest
        | none =>
          match P.stop st with
          | none => .stop []
          | some st' =>
            let outcome := P.test config_set
            let cache' := P.addc cache config_set outcome
            if outcome = Outcome.FAIL then .found i' cache' st' [config_set]
            else
              match rcLoop P subsets n offset cache' st' rest with
              | .found f c s t => .found f c s (config_set :: t)
              | .stop t => .stop (config_set :: t)
              | .err t => .err (config_set :: t)

/-- `DD._reduce_config`: run the candidate loop, then post-process
`fvalue`: a negative `fvalue` decodes to a complement hit at `-fvalue - 1`
(return the partition without that subset, and that index as the next
`complement_offset`); a non-negative `fvalue < n` is a subset hit (return
the single-chunk partition of that subset and offset 0); `fvalue = n`
means no hit (return `none` and the unchanged offset). -/
def reduceConfig {σ τ : Type} (P : DDParams σ τ) (subsets : List (List Nat)) (offset : Nat)
    (cache : σ) (st : τ) : RCOut σ τ :=
  let n := subsets.length
  match rcLoop P subsets n offset cache st (P.iter n) with
  | .found fvalue c s t =>
    if fvalue < 0 then
      let fv := (-fvalue - 1).toNat
      .res (some (subsets.eraseIdx fv)) fv c s t
    else if fvalue < (n : Int) then
      .res (some [subsets.getD fvalue.toNat []]) 0 c s t
    else .res none offset c s t
  | .stop t => .stop t
  | .err t => .err t

/-- Result of the run loop of `DD.__call__` (one dd-star iteration):
`finished` returns the reduced config and the `changed` flag;
`stopped`/`errored` carry the `result` attribute of the corresponding
reduction exception; `assertFailed` models the debug assertion at the top
of a run failing; `fuelOut` marks exhaustion of the step budget of the
model (the source loop is unbounded). -/
inductive RunRes : Type where
  | finished : List Nat → Bool → RunRes
  | stopped : List Nat → RunRes
  | errored : List Nat → RunRes
  | assertFailed : RunRes
  | fuelOut : RunRes
deriving DecidableEq, Repr

/-- Output of the run loop: result, final cache and stop state, the list
of configs passed to the tester (`ttrace`), and the (config, subsets)
pairs passed to `_reduce_config` (`ptrace`). -/
structure RunOut (σ τ : Type) : Type where
  res : RunRes
  cache : σ
  st : τ
  ttrace : List (List Nat)
  ptrace : List (List Nat × List (List Nat))

/-- The run loop of `DD.__call__` (the inner `for run in itertools.count()`
loop): assert that the current config still FAILs; stop when it has fewer
than two atoms; re-split a trivial partition; call `_reduce_config`; on a
hit continue with the new partition and its flattening, marking `changed`;
otherwise increase granularity (rescaling `complement_offset` by integer
division) while possible; else finish. -/
def runLoop {σ τ : Type} (P : DDParams σ τ) :
    Nat → List Nat → List (List Nat) → Nat → Bool → σ → τ → RunOut σ τ
  | 0, _, _, _, _, cache, st => ⟨.fuelOut, cache, st, [], []⟩
  | fuel + 1, config, subsets, offset, changed, cache, st =>
    if P.test config ≠ Outcome.FAIL then ⟨.assertFailed, cache, st, [config], []⟩
    else if config.length < 2 then ⟨.finished config changed, cache, st, [config], []⟩
    else
      let subsets1 := if subsets.length < 2 then P.split subsets else subsets
      match reduceConfig P subsets1 offset cache st with
      | .stop t => ⟨.stopped config, cache, st, config :: t, [(config, subsets1)]⟩
      | .err t => ⟨.errored config, cache, st, config :: t, [(config, subsets1)]⟩
      | .res next offset' cache' st' t =>
        match next with
        | some ns =>
          let out := runLoop P fuel ns.flatten ns offset' true cache' st'
          ⟨out.res, out.cache, out.st, config :: t ++ out.ttrace, (config, subsets1) :: out.ptrace⟩
        | none =>
          if subsets1.length < config.length then
            let ns := P.split subsets1
            let offset2 := offset' * ns.length / subsets1.length
            let out := runLoop P fuel config ns offset2 changed cache' st'
            ⟨out.res, out.cache, out.st, config :: t ++ out.ttrace, (config, subsets1) :: out.ptrace⟩
          else ⟨.finished config changed, cache', st', config :: t, [(config, subsets1)]⟩

/-- Result of `DD.__call__`: `done` is a normal return; the other
constructors are as in `RunRes`. -/
inductive DDRes : Type where
  | done : List Nat → DDRes
  | stopped : List Nat → DDRes
  | errored : List Nat → DDRes
  | assertFailed : DDRes
  | fuelOut : DDRes
deriving DecidableEq, Repr

/-- Output of `DD.__call__` with the same bookkeeping as `RunOut`. -/
structure DDOut (σ τ : Type) : Type where
  res : DDRes
  cache : σ
  st : τ
  ttrace : List (List Nat)
  ptrace : List (List Nat × List (List Nat))

/-- Lift a run-loop result to an engine result. -/
def runResToDD : RunRes → DDRes
  | .finished config _ => .done config
  | .stopped r => .stopped r
  | .errored r => .errored r
  | .assertFailed => .assertFailed
  | .fuelOut => .fuelOut

/-- The outer loop of `DD.__call__` (the `for iter_cnt in itertools.count()`
loop): each iteration re-initialises `subsets = [config]`,
`complement_offset = 0`, `changed = False` and executes the run loop; when
dd-star is disabled or the iteration did not change the config, the
current config is returned, otherwise a new iteration starts.  `rfuel`
bounds the runs per iteration and the first argument the number of
iterations. -/
def ddLoop {σ τ : Type} (P : DDParams σ τ) (rfuel : Nat) :
    Nat → List Nat → σ → τ → DDOut σ τ
  | 0, _, cache, st => ⟨.fuelOut, cache, st, [], []⟩
  | ifuel + 1, config, cache, st =>
    let out := runLoop P rfuel config [config] 0 false cache st
    match out.res with
    | .finished config' changed =>
      if P.ddStar && changed then
        let out2 := ddLoop P rfuel ifuel config' out.cache out.st
        ⟨out2.res, out2.cache, out2.st, out.ttrace ++ out2.ttrace, out.ptrace ++ out2.ptrace⟩
      else ⟨.done config', out.cache, out.st, out.ttrace, out.ptrace⟩
    | r => ⟨runResToDD r, out.cache, out.st, out.ttrace, out.ptrace⟩

/-! ## Basic list lemmas -/

/-- The flattening of a sublist of lists is a sublist of the flattening. -/
theorem flatten_sublist_of_sublist {l1 l2 : List (List Nat)} (h : l1.Sublist l2) :
    l1.flatten.Sublist l2.flatten := by
  induction h with
  | slnil => exact List.Sublist.refl _
  | cons a h ih => simpa using ih.trans (List.sublist_append_right _ _)
  | cons₂ a h ih => simpa using List.Sublist.append_left ih a

/-- Removing one subset from a partition yields a flattening that is a
sublist of the original flattening. -/
theorem eraseIdx_flatten_sublist (ss : List (List Nat)) (k : Nat) :
    (ss.eraseIdx k).flatten.Sublist ss.flatten :=
  flatten_sublist_of_sublist (List.eraseIdx_sublist ss k)

/-! ## Properties of the Zeller splitter -/

/-- The slicing loop produces exactly `r` chunks. -/
theorem sliceLoop_length (r : Nat) : ∀ config : List Nat, (sliceLoop config r).length = r := by
  induction r with
  | zero => intro config; simp [sliceLoop]
  | succ r ih => intro config; simp [sliceLoop, ih]

/-- For at least one chunk, the chunks of the slicing loop concatenate to
the input. -/
theorem sliceLoop_flatten (r : Nat) : ∀ config : List Nat, 1 ≤ r →
    (sliceLoop config r).flatten = config := by
  induction r with
  | zero => intro config h; omega
  | succ r ih =>
    intro config _
    cases r with
    | zero => simp [sliceLoop]
    | succ r' =>
      have hstep : sliceLoop config (r' + 1 + 1) =
          config.take (config.length / (r' + 1 + 1)) ::
            sliceLoop (config.drop (config.length / (r' + 1 + 1))) (r' + 1) := rfl
      rw [hstep, List.flatten_cons, ih _ (by omega), List.take_append_drop]

/-- When the input is long enough, every chunk of the slicing loop is
non-empty. -/
theorem sliceLoop_ne_nil (r : Nat) : ∀ config : List Nat, r ≤ config.length →
    ∀ chunk ∈ sliceLoop config r, chunk ≠ [] := by
  induction r with
  | zero => intro config _ chunk hc; simp [sliceLoop] at hc
  | succ r ih =>
    intro config hlen chunk hc
    simp only [sliceLoop, List.mem_cons] at hc
    have hs1 : 1 ≤ config.length / (r + 1) := (Nat.le_div_iff_mul_le (by omega)).2 (by omega)
    rcases hc with hc | hc
    · subst hc
      intro hnil
      have hlt : (config.take (config.length / (r + 1))).length = 0 := by
        rw [hnil]; rfl
      rw [List.length_take] at hlt
      omega
    · refine ih (config.drop (config.length / (r + 1))) ?_ chunk hc
      have hmul : config.length / (r + 1) * (r + 1) ≤ config.length :=
        Nat.div_mul_le_self _ _
      have hexp : config.length / (r + 1) * (r + 1) =
          config.length / (r + 1) * r + config.length / (r + 1) := by ring
      have hge : r ≤ config.length / (r + 1) * r :=
        Nat.le_mul_of_pos_left r hs1
      simp only [List.length_drop]
      omega

/-- Chunk sizes of the slicing loop are monotonically non-decreasing. -/
theorem sliceLoop_sizes_monotone (r : Nat) : ∀ config : List Nat,
    List.Chain' (· ≤ ·) ((sliceLoop config r).map List.length) := by
  induction r with
  | zero => intro config; simp [sliceLoop]
  | succ r ih =>
    intro config
    cases r with
    | zero => simp [sliceLoop]
    | succ r' =>
      have hab : (config.take (config.length / (r' + 1 + 1))).length ≤
          ((config.drop (config.length / (r' + 1 + 1))).take
            ((config.drop (config.length / (r' + 1 + 1))).length / (r' + 1))).length := by
        simp only [List.length_take, List.length_drop]
        have h2 : config.length / (r' + 1 + 1) * (r' + 1 + 1) ≤ config.length :=
          Nat.div_mul_le_self _ _
        have hexp : config.length / (r' + 1 + 1) * (r' + 1 + 1) =
            config.length / (r' + 1 + 1) * (r' + 1) + config.length / (r' + 1 + 1) := by ring
        have hx : config.length / (r' + 1 + 1) ≤ config.length / (r' + 1 + 1) * (r' + 1) :=
          Nat.le_mul_of_pos_right _ (by omega)
        have : config.length / (r' + 1 + 1) ≤
            (config.length - config.length / (r' + 1 + 1)) / (r' + 1) :=
          (Nat.le_div_iff_mul_le (by omega)).2 (by omega)
        omega
      have htail := ih (config.drop (config.length / (r' + 1 + 1)))
      exact List.chain'_cons.2 ⟨hab, htail⟩

/-- The Zeller splitter never produces an empty chunk. -/
theorem zellerSplit_ne_nil (nfac : Nat) (subsets : List (List Nat)) :
    ∀ chunk ∈ zellerSplit nfac subsets, chunk ≠ [] := by
  intro chunk hc
  exact sliceLoop_ne_nil _ _ (le_trans (Nat.min_le_left _ _) (le_refl _)) chunk hc

/-- The chunk count of the Zeller splitter. -/
theorem zellerSplit_length (nfac : Nat) (subsets : List (List Nat)) :
    (zellerSplit nfac subsets).length =
      min subsets.flatten.length (subsets.length * nfac) := by
  simp [zellerSplit, sliceLoop_length]

/-- With a non-empty partition and a positive factor, the Zeller splitter
preserves the flattening. -/
theorem zellerSplit_flatten (nfac : Nat) (subsets : List (List Nat))
    (hn : 1 ≤ nfac) (hs : subsets ≠ []) :
    (zellerSplit nfac subsets).flatten = subsets.flatten := by
  unfold zellerSplit
  rcases Nat.eq_zero_or_pos subsets.flatten.length with h0 | h1
  · rw [List.length_eq_zero.1 h0]
    simp [sliceLoop]
  · have hk : 1 ≤ subsets.length := by
      cases subsets with
      | nil => exact absurd rfl hs
      | cons a l => simp
    exact sliceLoop_flatten _ _ (by
      have : 1 ≤ subsets.length * nfac := Nat.mul_le_mul hk hn
      omega)

/-- C8: ZellerSplit with split factor n, applied to a partition of k
subsets whose flattening has length L, returns `m = min(L, k·n)` chunks
produced by the iterative slicing, the chunks concatenate to the flattened
input, and the chunk sizes are monotonically non-decreasing. -/
theorem zeller_split_spec (nfac : Nat) (subsets : List (List Nat))
    (hn : 1 ≤ nfac) (hs : subsets ≠ []) :
    (zellerSplit nfac subsets).length =
      min subsets.flatten.length (subsets.length * nfac)
    ∧ (zellerSplit nfac subsets).flatten = subsets.flatten
    ∧ List.Chain' (· ≤ ·) ((zellerSplit nfac subsets).map List.length) :=
  ⟨zellerSplit_length nfac subsets, zellerSplit_flatten nfac subsets hn hs,
    sliceLoop_sizes_monotone _ _⟩

/-- Witness for C8 at a concrete partition. -/
theorem zeller_split_spec_witness :
    (zellerSplit 2 [[3, 5], [7, 8, 9]]).length =
      min ([[3, 5], [7, 8, 9]] : List (List Nat)).flatten.length
        (([[3, 5], [7, 8, 9]] : List (List Nat)).length * 2)
    ∧ (zellerSplit 2 [[3, 5], [7, 8, 9]]).flatten =
        ([[3, 5], [7, 8, 9]] : List (List Nat)).flatten
    ∧ List.Chain' (· ≤ ·) ((zellerSplit 2 [[3, 5], [7, 8, 9]]).map List.length) :=
  zeller_split_spec 2 [[3, 5], [7, 8, 9]] (by decide) (by decide)

/-! ## Cache theorems -/

/-- C10: for the content cache and the content-hash cache, `clear()` does
not modify the cache state: every lookup after `clear` returns exactly the
same result as before, and the container is unchanged. -/
theorem content_clear_frame :
    (∀ (container : ContentContainer) (builder : List Nat → List Nat) (config : List Nat),
      contentCacheLookup builder (contentCacheClear container) config
        = contentCacheLookup builder container config
      ∧ contentCacheClear container = container)
    ∧ (∀ (container : ContentHashContainer) (hash : List Nat → Nat)
        (builder : List Nat → List Nat) (config : List Nat),
      contentHashCacheLookup hash builder (contentHashCacheClear container) config
        = contentHashCacheLookup hash builder container config
      ∧ contentHashCacheClear container = container) :=
  ⟨fun _ _ _ => ⟨rfl, rfl⟩, fun _ _ _ _ => ⟨rfl, rfl⟩⟩

/-- Apply a sequence of `add` operations to a content-hash cache. -/
def contentHashCacheAdds (hash : List Nat → Nat) (builder : List Nat → List Nat)
    (evict_after_fail : Bool) (container : ContentHashContainer)
    (ops : List (List Nat × Outcome)) : ContentHashContainer :=
  ops.foldl (fun cont op => contentHashCacheAdd hash builder evict_after_fail cont op.1 op.2)
    container

/-- Every entry of a content-hash container built by `add` operations from
a PASS-only container stores a PASS outcome. -/
theorem contentHashCacheAdds_pass (hash : List Nat → Nat) (builder : List Nat → List Nat)
    (evict_after_fail : Bool) (ops : List (List Nat × Outcome)) :
    ∀ container : ContentHashContainer,
      (∀ h o l, container h = some (o, l) → o = Outcome.PASS) →
      ∀ h o l, contentHashCacheAdds hash builder evict_after_fail container ops h = some (o, l) →
        o = Outcome.PASS := by
  induction ops with
  | nil => intro container hinv h o l hl; exact hinv h o l hl
  | cons op rest ih =>
    intro container hinv h o l hl
    refine ih _ ?_ h o l hl
    intro h' o' l' hl'
    rcases op with ⟨cfg, res⟩
    cases res with
    | PASS =>
      simp only [contentHashCacheAdd, reduceCtorEq, false_and, if_false, ite_false,
        if_true, ite_true, and_self, and_true, true_and] at hl'
      by_cases hh : h' = hash (builder cfg)
      · rw [if_pos hh] at hl'
        exact (congrArg Prod.fst (Option.some.inj hl')).symm
      · rw [if_neg hh] at hl'
        exact hinv h' o' l' hl'
    | FAIL =>
      cases evict_after_fail with
      | false =>
        simp only [contentHashCacheAdd] at hl'
        simp only [and_self, if_true, ite_true] at hl'
        exact hinv h' o' l' hl'
      | true =>
        simp only [contentHashCacheAdd, Bool.true_eq_false, and_false, if_false, ite_false,
          reduceCtorEq, and_self, if_true, ite_true] at hl'
        rcases hcont : container h' with _ | ⟨r, ll⟩ <;> rw [hcont] at hl'
        · simp at hl'
        · by_cases hlt : (builder cfg).length < ll
          · simp [hlt] at hl'
          · simp only [hlt, if_false, ite_false] at hl'
            have h1 : r = o' := congrArg Prod.fst (Option.some.inj hl')
            exact h1 ▸ hinv h' r ll hcont

/-- C5: the content-hash cache never stores a FAIL outcome: for every
sequence of `add` operations applied to a freshly constructed cache
(whatever the ignored `cache_fail` constructor argument was), no lookup
returns FAIL; and adding a FAIL can only evict entries (every slot is
either cleared or left unchanged). -/
theorem content_hash_never_fail (hash : List Nat → Nat) (builder : List Nat → List Nat)
    (cache_fail evict_after_fail : Bool) (ops : List (List Nat × Outcome)) (config : List Nat) :
    contentHashCacheLookup hash builder
        (contentHashCacheAdds hash builder (contentHashCacheInit cache_fail evict_after_fail).1
          (contentHashCacheInit cache_fail evict_after_fail).2 ops) config ≠ some Outcome.FAIL
    ∧ ∀ (container : ContentHashContainer) (C : List Nat) (h : Nat),
        contentHashCacheAdd hash builder evict_after_fail container C Outcome.FAIL h = none
        ∨ contentHashCacheAdd hash builder evict_after_fail container C Outcome.FAIL h
            = container h := by
  constructor
  · have hpass := contentHashCacheAdds_pass hash builder
      (contentHashCacheInit cache_fail evict_after_fail).1 ops
      (contentHashCacheInit cache_fail evict_after_fail).2
      (by intro h o l hl; exact absurd hl (by simp [contentHashCacheInit]))
    unfold contentHashCacheLookup
    cases hc : contentHashCacheAdds hash builder (contentHashCacheInit cache_fail evict_after_fail).1
        (contentHashCacheInit cache_fail evict_after_fail).2 ops (hash (builder config)) with
    | none => simp
    | some p =>
      rcases p with ⟨r, l⟩
      have := hpass _ r l hc
      subst this
      simp
  · intro container C h
    cases evict_after_fail with
    | false =>
      right
      simp [contentHashCacheAdd]
    | true =>
      simp only [contentHashCacheAdd, Bool.true_eq_false, and_false, if_false, ite_false,
        reduceCtorEq, and_self, if_true, ite_true]
      cases hcont : container h with
      | none => right; rfl
      | some p =>
        rcases p with ⟨r, l⟩
        by_cases hlt : (builder C).length < l
        · left; simp [hlt]
        · right; simp [hlt]

/-- Eviction of a `ConfigCache` trie at depth `L` removes every path
longer than `L`: lookups of longer configurations find nothing. -/
theorem CEntry.evict_find_none (L : Nat) : ∀ (p : CEntry) (c' : List Nat),
    L < c'.length → (CEntry.evict L p).find c' = none := by
  induction L with
  | zero =>
    intro p c' hlen
    cases p with
    | mk r t =>
      cases c' with
      | nil => simp at hlen
      | cons a rest => simp [CEntry.evict, CEntry.find]
  | succ l ih =>
    intro p c' hlen
    cases p with
    | mk r t =>
      cases c' with
      | nil => simp at hlen
      | cons a rest =>
        show CEntry.find (CEntry.mk r (fun k => (t k).map (CEntry.evict l))) (a :: rest) = none
        cases ht : t a with
        | none => simp [CEntry.find, ht]
        | some e =>
          simp only [CEntry.find, ht, Option.map_some]
          exact ih e rest (by simpa using hlen)

/-- C4: for every cache strategy constructed with `evict_after_fail=true`,
immediately after `add(C, FAIL)` the cache contains no entry for any
config of length greater than L (the number of atoms for the config trie,
the artifact length for the content-keyed caches): lookups of longer
configs return nothing, and every entry surviving in the content-hash
container records a length of at most L (so no lookup whose hash slot
honestly tracks artifact lengths can return PASS for a longer config). -/
theorem evict_after_fail_safety :
    (∀ (cache_fail : Bool) (root : CEntry) (C c' : List Nat),
      C.length < c'.length →
      (configCacheAdd cache_fail true root C Outcome.FAIL).find c' = none)
    ∧ (∀ (builder : List Nat → List Nat) (cache_fail : Bool) (container : ContentContainer)
        (C c' : List Nat),
      (builder C).length < (builder c').length →
      contentCacheLookup builder
        (contentCacheAdd builder cache_fail true container C Outcome.FAIL) c' = none)
    ∧ (∀ (hash : List Nat → Nat) (builder : List Nat → List Nat)
        (container : ContentHashContainer) (C : List Nat) (h : Nat) (o : Outcome) (l : Nat),
      contentHashCacheAdd hash builder true container C Outcome.FAIL h = some (o, l) →
      l ≤ (builder C).length)
    ∧ (∀ (hash : List Nat → Nat) (builder : List Nat → List Nat)
        (container : ContentHashContainer) (C c' : List Nat),
      (∀ (c'' : List Nat) (o : Outcome) (l : Nat),
        container (hash (builder c'')) = some (o, l) → (builder c'').length = l) →
      (builder C).length < (builder c').length →
      contentHashCacheLookup hash builder
        (contentHashCacheAdd hash builder true container C Outcome.FAIL) c' = none) := by
  refine ⟨?_, ?_, ?_, ?_⟩
  · intro cache_fail root C c' hlen
    unfold configCacheAdd
    rw [if_pos (by simp)]
    exact CEntry.evict_find_none C.length _ c' hlen
  · intro builder cache_fail container C c' hlen
    unfold contentCacheLookup contentCacheAdd
    rw [if_neg (by simp)]
    simp only [reduceCtorEq, eq_self_iff_true, and_self, and_true, true_and, if_true, ite_true]
    rw [if_pos hlen]
  · intro hash builder container C h o l hl
    simp only [contentHashCacheAdd, Bool.true_eq_false, and_false, if_false, ite_false,
      reduceCtorEq, and_self, if_true, ite_true] at hl
    cases hcont : container h with
    | none => rw [hcont] at hl; exact absurd hl (by simp)
    | some p =>
      rcases p with ⟨r, ll⟩
      rw [hcont] at hl
      have hl2 : (if (builder C).length < ll then none else some (r, ll)) = some (o, l) := hl
      by_cases hlt : (builder C).length < ll
      · rw [if_pos hlt] at hl2; exact absurd hl2 (by simp)
      · rw [if_neg hlt] at hl2
        have h2 : ll = l := congrArg Prod.snd (Option.some.inj hl2)
        omega
  · intro hash builder container C c' hcons hlen
    unfold contentHashCacheLookup
    simp only [contentHashCacheAdd, Bool.true_eq_false, and_false, if_false, ite_false,
      reduceCtorEq, and_self, if_true, ite_true]
    cases hcont : container (hash (builder c')) with
    | none => rfl
    | some p =>
      rcases p with ⟨r, ll⟩
      have := hcons c' r ll hcont
      have hlt : (builder C).length < ll := by omega
      simp [hlt]

/-- Witness for C4: one concrete instantiation per conjunct. -/
theorem evict_after_fail_safety_witness :
    (configCacheAdd false true CEntry.empty [1] Outcome.FAIL).find [2, 3] = none
    ∧ contentCacheLookup id
        (contentCacheAdd id false true (fun _ => none) [1] Outcome.FAIL) [2, 3] = none
    ∧ 1 ≤ (id ([1] : List Nat)).length
    ∧ contentHashCacheLookup (fun c => c.length) id
        (contentHashCacheAdd (fun c => c.length) id true (fun _ => none) [1] Outcome.FAIL)
        [2, 3] = none :=
  ⟨evict_after_fail_safety.1 false CEntry.empty [1] [2, 3] (by decide),
    evict_after_fail_safety.2.1 id false (fun _ => none) [1] [2, 3] (by decide),
    evict_after_fail_safety.2.2.1 (fun c => c.length) id (fun _ => some (Outcome.PASS, 1)) [1] 5
      Outcome.PASS 1 (by rfl),
    evict_after_fail_safety.2.2.2 (fun c => c.length) id (fun _ => none) [1] [2, 3]
      (by intro c'' o l hl; exact absurd hl (by simp)) (by decide)⟩

/-! ## The stop condition: C3 -/

/-- A tester for which every config is interesting. -/
def alwaysFailTest (_ : List Nat) : Outcome := Outcome.FAIL

/-- DD parameters with the always-failing tester, no cache, the default
iterator and splitter, a `LimitReduction` stop evaluated at time `now`,
and dd-star disabled. -/
def limitParams (now : Int) : DDParams Unit LimitReduction where
  test := alwaysFailTest
  lookup := fun _ _ => none
  addc := fun _ _ _ => ()
  iter := defaultIterator
  split := zellerSplit 2
  stop := fun s => limitCall now s
  ddStar := false

/-- A `max_tests = 0` stop raises before the very first dispatched test. -/
theorem limitCall_zero (now : Int) : limitCall now (LimitReduction.init none (some 0)) = none := by
  simp [limitCall, LimitReduction.init]

/-- The candidate loop stops immediately when the first candidate is a
cache miss and the stop callable raises. -/
theorem rcLoop_stop_first {σ τ : Type} (P : DDParams σ τ) (subsets : List (List Nat))
    (n offset : Nat) (cache : σ) (st : τ) (i : Int) (rest : List Int)
    (hi : 0 ≤ i) (hin : i.toNat < n)
    (hcold : ∀ c, P.lookup cache c = none)
    (hstop : P.stop st = none) :
    rcLoop P subsets n offset cache st (i :: rest) = .stop [] := by
  simp [rcLoop, hi, hin, hcold, hstop]

/-- C3 (amended): a `LimitReduction` call raises exactly when the current
time is at or past the configured deadline or the configured test budget
has remaining count zero, and otherwise decrements the remaining budget by
one.  Consequently, reducing an interesting config *of at least two atoms*
with the default iterator and splitter, a cold cache and a `max_tests = 0`
stop raises `ReductionStopped` with `result` equal to the initial config
(configs of fewer than two atoms are returned without consulting the
stop). -/
theorem limit_stop_spec :
    (∀ (now : Int) (s : LimitReduction) (m : Int),
      s.max_tests = some m → 0 ≤ s.tests_left →
      ((limitCall now s = none ↔
          (s.deadline.isSome ∧ s.deadline.getD 0 ≤ now) ∨ s.tests_left = 0)
        ∧ ∀ s', limitCall now s = some s' →
            s' = { s with tests_left := s.tests_left - 1 }))
    ∧ (∀ (σ : Type) (test : List Nat → Outcome) (lookupf : σ → List Nat → Option Outcome)
        (addf : σ → List Nat → Outcome → σ) (star : Bool) (now : Int)
        (cache : σ) (config : List Nat) (rfuel ifuel : Nat),
      (∀ c, lookupf cache c = none) → test config = Outcome.FAIL → 2 ≤ config.length →
      (ddLoop ⟨test, lookupf, addf, defaultIterator, zellerSplit 2,
          fun s => limitCall now s, star⟩ (rfuel + 1) (ifuel + 1)
          config cache (LimitReduction.init none (some 0))).res = DDRes.stopped config) := by
  constructor
  · intro now s m hm hnn
    constructor
    · unfold limitCall
      by_cases hd : s.deadline.isSome ∧ s.deadline.getD 0 ≤ now
      · rw [if_pos hd]
        simp [hd]
      · rw [if_neg hd]
        rw [if_pos (by simp [hm])]
        by_cases hz : s.tests_left ≤ 0
        · rw [if_pos hz]
          simp only [true_iff]
          exact Or.inr (by omega)
        · rw [if_neg hz]
          simp only [reduceCtorEq, false_iff]
          intro hcon
          rcases hcon with hcon | hcon
          · exact hd hcon
          · omega
    · intro s' hs'
      unfold limitCall at hs'
      by_cases hd : s.deadline.isSome ∧ s.deadline.getD 0 ≤ now
      · rw [if_pos hd] at hs'
        exact absurd hs' (by simp)
      · rw [if_neg hd, if_pos (by simp [hm])] at hs'
        by_cases hz : s.tests_left ≤ 0
        · rw [if_pos hz] at hs'
          exact absurd hs' (by simp)
        · rw [if_neg hz] at hs'
          exact (Option.some.inj hs').symm
  · intro σ test lookupf addf star now cache config rfuel ifuel hcold htest hlen
    have hflat : ([config] : List (List Nat)).flatten = config := by simp
    have hn : (zellerSplit 2 [config]).length = 2 := by
      rw [zellerSplit_length, hflat]
      simp
      omega
    have hiter : defaultIterator 2 = [(0 : Int), 1, -1, -2] := rfl
    have hrc : reduceConfig
        (⟨test, lookupf, addf, defaultIterator, zellerSplit 2, fun s => limitCall now s, star⟩ :
          DDParams σ LimitReduction)
        (zellerSplit 2 [config]) 0 cache (LimitReduction.init none (some 0)) = .stop [] := by
      simp only [reduceConfig]
      rw [hn, hiter]
      rw [rcLoop_stop_first _ _ _ _ _ _ _ _ (by omega) (by simp [hn]) hcold
        (limitCall_zero now)]
    have hrun : runLoop
        (⟨test, lookupf, addf, defaultIterator, zellerSplit 2, fun s => limitCall now s, star⟩ :
          DDParams σ LimitReduction)
        (rfuel + 1) config [config] 0 false cache (LimitReduction.init none (some 0)) =
        ⟨.stopped config, cache, LimitReduction.init none (some 0), [config],
          [(config, zellerSplit 2 [config])]⟩ := by
      simp only [runLoop]
      rw [if_neg (by simp [htest]), if_neg (by omega)]
      simp only [List.length_cons, List.length_nil]
      rw [if_pos (by omega)]
      rw [hrc]
    simp only [ddLoop]
    rw [hrun]
    rfl

/-- Witness for C3 at concrete inputs: a configured budget of 2 with no
deadline does not raise, and a two-atom always-failing reduction with
`max_tests = 0` stops with the initial config. -/
theorem limit_stop_spec_witness :
    ((limitCall 5 ⟨some 3, some 2, 2⟩ = none ↔
        ((some (3 : Int)).isSome ∧ (some (3 : Int)).getD 0 ≤ 5) ∨ (2 : Int) = 0)
      ∧ ∀ s', limitCall 5 ⟨some 3, some 2, 2⟩ = some s' →
          s' = { deadline := some 3, max_tests := some 2, tests_left := 2 - 1 })
    ∧ (ddLoop (limitParams 0) (2 + 1) (2 + 1) [0, 1] ()
        (LimitReduction.init none (some 0))).res = DDRes.stopped [0, 1] :=
  ⟨limit_stop_spec.1 5 ⟨some 3, some 2, 2⟩ 2 rfl (by decide),
    limit_stop_spec.2 Unit alwaysFailTest (fun _ _ => none) (fun _ _ _ => ()) false 0 ()
      [0, 1] 2 2 (fun _ => rfl) rfl (by decide)⟩

/-- Counterexample for C3 as frozen: an interesting config of a single
atom is returned normally by the engine under a `max_tests = 0` stop; no
`ReductionStopped` is raised. -/
theorem limit_stop_singleton_counterexample :
    alwaysFailTest [0] = Outcome.FAIL
    ∧ (ddLoop (limitParams 0) 5 5 [0] () (LimitReduction.init none (some 0))).res
        = DDRes.done [0] :=
  ⟨rfl, rfl⟩

/-! ## The dd-star default: C9 -/

/-- A tester on eight atoms for which single-pass ddmin is not a fixed
point: exactly the three listed configs are interesting. -/
def ddStarScenarioTest (c : List Nat) : Outcome :=
  if c = [0, 1, 2, 3, 4, 5, 6, 7] ∨ c = [0, 1, 4, 5, 6, 7] ∨ c = [0, 1, 4] then Outcome.FAIL
  else Outcome.PASS

/-- DD parameters mirroring the `DD.__init__` defaults around a given
tester: `ConfigCache()` (which defaults to `cache_fail=False`,
`evict_after_fail=True`), `ZellerSplit()` (ratio 2), `CombinedIterator()`
(subsets first, forward/forward), no stop, and the default `dd_star`. -/
def defaultDDParams (test : List Nat → Outcome) : DDParams CEntry Unit where
  test := test
  lookup := fun root c => root.find c
  addc := fun root c o => configCacheAdd false true root c o
  iter := defaultIterator
  split := zellerSplit 2
  stop := fun _ => some ()
  ddStar := ({} : DDInitArgs).dd_star

/-- Counterexample for C9 as frozen: `dd_star` defaults to `False` in
`DD.__init__`, and under the defaults the engine's output on a concrete
tester is not a ddmin fixed point (re-running the engine on its own output
reduces it further), so the default engine does not iterate ddmin to a
fixed point. -/
theorem dd_star_default_counterexample :
    ({} : DDInitArgs).dd_star = false
    ∧ (ddLoop (defaultDDParams ddStarScenarioTest) 20 20 [0, 1, 2, 3, 4, 5, 6, 7]
        CEntry.empty ()).res = DDRes.done [0, 1, 4, 5, 6, 7]
    ∧ (ddLoop (defaultDDParams ddStarScenarioTest) 20 20 [0, 1, 4, 5, 6, 7]
        CEntry.empty ()).res = DDRes.done [0, 1, 4]
    ∧ ([0, 1, 4] : List Nat) ≠ [0, 1, 4, 5, 6, 7] :=
  ⟨rfl, rfl, rfl, by decide⟩

/-- C9 (amended): the `dd_star` flag of `DD.__init__` defaults to `False`,
and an engine whose `dd_star` flag is false performs exactly one ddmin
pass: its result is the result of a single run loop over the initial
config. -/
theorem dd_star_default_spec {σ τ : Type} (P : DDParams σ τ) (rfuel ifuel : Nat)
    (config : List Nat) (cache : σ) (st : τ) (hstar : P.ddStar = false) :
    ({} : DDInitArgs).dd_star = false
    ∧ ddLoop P rfuel (ifuel + 1) config cache st =
        (let out := runLoop P rfuel config [config] 0 false cache st
         ⟨runResToDD out.res, out.cache, out.st, out.ttrace, out.ptrace⟩) := by
  refine ⟨rfl, ?_⟩
  simp only [ddLoop, hstar]
  cases hres : (runLoop P rfuel config [config] 0 false cache st).res with
  | finished c ch => simp [hres, runResToDD]
  | stopped r => simp [hres, runResToDD]
  | errored r => simp [hres, runResToDD]
  | assertFailed => simp [hres, runResToDD]
  | fuelOut => simp [hres, runResToDD]

/-- Witness for C9's amended theorem at a concrete engine. -/
theorem dd_star_default_spec_witness :
    ({} : DDInitArgs).dd_star = false
    ∧ ddLoop (defaultDDParams ddStarScenarioTest) 3 (2 + 1) [0] CEntry.empty () =
        (let out := runLoop (defaultDDParams ddStarScenarioTest) 3 [0] [[0]] 0 false
          CEntry.empty ()
         ⟨runResToDD out.res, out.cache, out.st, out.ttrace, out.ptrace⟩) :=
  dd_star_default_spec (defaultDDParams ddStarScenarioTest) 3 2 [0] CEntry.empty () rfl

/-! ## The reduce step: range of the returned index -/

/-- Any `fvalue` produced by the candidate loop is either the no-hit value
`n`, a subset index in `[0, n)`, or an encoded complement index whose
decoding is in `[0, n)`. -/
theorem rcLoop_range {σ τ : Type} (P : DDParams σ τ) (subsets : List (List Nat))
    (n offset : Nat) :
    ∀ (l : List Int) (cache : σ) (st : τ) (f : Int) (c : σ) (s : τ) (t : List (List Nat)),
      rcLoop P subsets n offset cache st l = .found f c s t →
      f = (n : Int)
      ∨ (0 ≤ f ∧ f < (n : Int))
      ∨ (f < 0 ∧ (-f - 1).toNat < n) := by
  intro l
  induction l with
  | nil =>
    intro cache st f c s t hf
    simp only [rcLoop] at hf
    injection hf with h1 h2 h3 h4
    exact Or.inl h1.symm
  | cons i rest ih =>
    intro cache st f c s t hf
    by_cases h0 : (0 : Int) ≤ i
    · by_cases hin : i.toNat < n
      · simp only [rcLoop, h0, hin, if_true, ite_true] at hf
        cases hl : P.lookup cache (subsets.getD i.toNat []) with
        | some outcome =>
          rw [hl] at hf
          by_cases hfail : outcome = Outcome.FAIL
          · simp only [hfail, if_true, ite_true] at hf
            injection hf with h1 h2 h3 h4
            subst h1
            exact Or.inr (Or.inl ⟨h0, by omega⟩)
          · simp only [hfail, if_false, ite_false] at hf
            exact ih cache st f c s t hf
        | none =>
          rw [hl] at hf
          cases hst : P.stop st with
          | none => rw [hst] at hf; exact absurd hf (by simp)
          | some st' =>
            rw [hst] at hf
            by_cases hfail : P.test (subsets.getD i.toNat []) = Outcome.FAIL
            · simp only [hfail, if_true, ite_true] at hf
              injection hf with h1 h2 h3 h4
              subst h1
              exact Or.inr (Or.inl ⟨h0, by omega⟩)
            · simp only [hfail, if_false, ite_false] at hf
              cases hrec : rcLoop P subsets n offset
                  (P.addc cache (subsets.getD i.toNat [])
                    (P.test (subsets.getD i.toNat []))) st' rest with
              | found f2 c2 s2 t2 =>
                rw [hrec] at hf
                injection hf with h1 h2 h3 h4
                subst h1
                exact ih _ _ f2 c2 s2 t2 hrec
              | stop t2 => rw [hrec] at hf; exact absurd hf (by simp)
              | err t2 => rw [hrec] at hf; exact absurd hf (by simp)
      · simp only [rcLoop, h0, hin, if_true, ite_true, if_false, ite_false] at hf
        exact absurd hf (by simp)
    · by_cases hn0 : n = 0
      · simp only [rcLoop, h0, hn0, if_false, ite_false, if_true, ite_true] at hf
        exact absurd hf (by simp)
      · have hklt : ((-i - 1).toNat + offset) % n < n := Nat.mod_lt _ (by omega)
        simp only [rcLoop, h0, hn0, if_false, ite_false] at hf
        cases hl : P.lookup cache
            ((subsets.eraseIdx (((-i - 1).toNat + offset) % n)).flatten) with
        | some outcome =>
          rw [hl] at hf
          by_cases hfail : outcome = Outcome.FAIL
          · simp only [hfail, if_true, ite_true] at hf
            injection hf with h1 h2 h3 h4
            subst h1
            refine Or.inr (Or.inr ⟨by omega, by omega⟩)
          · simp only [hfail, if_false, ite_false] at hf
            exact ih cache st f c s t hf
        | none =>
          rw [hl] at hf
          cases hst : P.stop st with
          | none => rw [hst] at hf; exact absurd hf (by simp)
          | some st' =>
            rw [hst] at hf
            by_cases hfail : P.test
                ((subsets.eraseIdx (((-i - 1).toNat + offset) % n)).flatten) = Outcome.FAIL
            · simp only [hfail, if_true, ite_true] at hf
              injection hf with h1 h2 h3 h4
              subst h1
              exact Or.inr (Or.inr ⟨by omega, by omega⟩)
            · simp only [hfail, if_false, ite_false] at hf
              cases hrec : rcLoop P subsets n offset
                  (P.addc cache ((subsets.eraseIdx (((-i - 1).toNat + offset) % n)).flatten)
                    (P.test ((subsets.eraseIdx (((-i - 1).toNat + offset) % n)).flatten)))
                  st' rest with
              | found f2 c2 s2 t2 =>
                rw [hrec] at hf
                injection hf with h1 h2 h3 h4
                subst h1
                exact ih _ _ f2 c2 s2 t2 hrec
              | stop t2 => rw [hrec] at hf; exact absurd hf (by simp)
              | err t2 => rw [hrec] at hf; exact absurd hf (by simp)

/-! ## The complement offset: C6 -/

/-- A tester failing exactly on the complement of the last of three
singleton subsets. -/
def lastComplementTest (c : List Nat) : Outcome :=
  if c = [0, 1] then Outcome.FAIL else Outcome.PASS

/-- Cache-less DD parameters around a tester: lookups always miss, adds
are dropped, the stop never raises, default iterator and splitter. -/
def noCacheParams (test : List Nat → Outcome) (star : Bool) : DDParams Unit Unit where
  test := test
  lookup := fun _ _ => none
  addc := fun _ _ _ => ()
  iter := defaultIterator
  split := zellerSplit 2
  stop := fun _ => some ()
  ddStar := star

/-- Counterexample for C6 as frozen: a complement hit on the last of three
subsets returns `complement_offset = 2` together with a two-subset
partition, so immediately after this update the offset is *not* a valid
subset index (`2 < 2` fails). -/
theorem complement_offset_counterexample :
    reduceConfig (noCacheParams lastComplementTest false) [[0], [1], [2]] 0 () ()
      = .res (some [[0], [1]]) 2 () () [[0], [1], [2], [1, 2], [0, 2], [0, 1]]
    ∧ ¬(2 < ([[0], [1]] : List (List Nat)).length) :=
  ⟨rfl, by decide⟩

/-- C6 (amended): the run-loop invariant that holds is
`0 ≤ complement_offset ≤ |subsets|` (with equality possible exactly after
a complement hit on the last subset): whenever the reduce step returns a
new partition, the returned offset is at most the new partition's length
(0 on a subset hit, the removed index on a complement hit); when it
returns no partition the offset is unchanged; and the granularity-increase
rescaling by integer division keeps the offset at most the new partition's
length. -/
theorem complement_offset_bound {σ τ : Type} (P : DDParams σ τ) :
    (∀ (subsets : List (List Nat)) (offset : Nat) (cache : σ) (st : τ)
        (ns : List (List Nat)) (off : Nat) (c : σ) (s : τ) (t : List (List Nat)),
      reduceConfig P subsets offset cache st = .res (some ns) off c s t → off ≤ ns.length)
    ∧ (∀ (subsets : List (List Nat)) (offset : Nat) (cache : σ) (st : τ)
        (off : Nat) (c : σ) (s : τ) (t : List (List Nat)),
      reduceConfig P subsets offset cache st = .res none off c s t → off = offset)
    ∧ (∀ (subsets1 : List (List Nat)) (off : Nat), 1 ≤ subsets1.length →
        off ≤ subsets1.length →
        off * (P.split subsets1).length / subsets1.length ≤ (P.split subsets1).length) := by
  refine ⟨?_, ?_, ?_⟩
  · intro subsets offset cache st ns off c s t h
    simp only [reduceConfig] at h
    cases hrc : rcLoop P subsets subsets.length offset cache st (P.iter subsets.length) with
    | found f c2 s2 t2 =>
      rw [hrc] at h
      dsimp only at h
      have hrange := rcLoop_range P subsets subsets.length offset _ _ _ _ _ _ _ hrc
      by_cases hneg : f < 0
      · rw [if_pos hneg] at h
        injection h with h1 h2 h3 h4 h5
        have hns : ns = subsets.eraseIdx (-f - 1).toNat := (Option.some.inj h1).symm
        have hlt : (-f - 1).toNat < subsets.length := by
          rcases hrange with h | h | h
          · omega
          · omega
          · exact h.2
        subst hns
        rw [List.length_eraseIdx, if_pos hlt]
        omega
      · rw [if_neg hneg] at h
        by_cases hlt : f < (subsets.length : Int)
        · rw [if_pos hlt] at h
          injection h with h1 h2 h3 h4 h5
          simp [← h2]
        · rw [if_neg hlt] at h
          exact absurd h (by simp)
    | stop t2 => rw [hrc] at h; exact absurd h (by simp)
    | err t2 => rw [hrc] at h; exact absurd h (by simp)
  · intro subsets offset cache st off c s t h
    simp only [reduceConfig] at h
    cases hrc : rcLoop P subsets subsets.length offset cache st (P.iter subsets.length) with
    | found f c2 s2 t2 =>
      rw [hrc] at h
      dsimp only at h
      by_cases hneg : f < 0
      · rw [if_pos hneg] at h
        exact absurd h (by simp)
      · rw [if_neg hneg] at h
        by_cases hlt : f < (subsets.length : Int)
        · rw [if_pos hlt] at h
          exact absurd h (by simp)
        · rw [if_neg hlt] at h
          injection h with h1 h2 h3 h4 h5
          exact h2.symm
    | stop t2 => rw [hrc] at h; exact absurd h (by simp)
    | err t2 => rw [hrc] at h; exact absurd h (by simp)
  · intro subsets1 off hk hoff
    calc off * (P.split subsets1).length / subsets1.length
        ≤ subsets1.length * (P.split subsets1).length / subsets1.length :=
          Nat.div_le_div_right (Nat.mul_le_mul_right _ hoff)
      _ = (P.split subsets1).length := Nat.mul_div_cancel_left _ (by omega)

/-- Witness for C6's amended theorem at the concrete complement hit. -/
theorem complement_offset_bound_witness :
    (2 : Nat) ≤ ([[0], [1]] : List (List Nat)).length :=
  (complement_offset_bound (noCacheParams lastComplementTest false)).1
    [[0], [1], [2]] 0 () () [[0], [1]] 2 () () [[0], [1], [2], [1, 2], [0, 2], [0, 1]] rfl

/-! ## Cache soundness and the FAIL invariant: C1 -/

/-- A cache state is sound for the engine's tester when every stored
outcome is the tester's actual outcome on that config.  (This holds in
particular for cold caches and is preserved by the repository's caches,
which only ever store outcomes handed to `add`.) -/
def CacheSound {σ τ : Type} (P : DDParams σ τ) (cache : σ) : Prop :=
  ∀ c o, P.lookup cache c = some o → P.test c = o

/-- Adding the tester's own outcome for a config preserves cache
soundness. -/
def AddSound {σ τ : Type} (P : DDParams σ τ) : Prop :=
  ∀ cache c, CacheSound P cache → CacheSound P (P.addc cache c (P.test c))

/-- Through the candidate loop, cache soundness is preserved, and a hit
(`fvalue ≠ n`) denotes a candidate on which the tester FAILs: the indexed
subset for a non-negative `fvalue`, the complement of subset
`-fvalue - 1` for a negative one. -/
theorem rcLoop_sound {σ τ : Type} (P : DDParams σ τ) (hadd : AddSound P)
    (subsets : List (List Nat)) (n offset : Nat) :
    ∀ (l : List Int) (cache : σ) (st : τ), CacheSound P cache →
      ∀ (f : Int) (c : σ) (s : τ) (t : List (List Nat)),
        rcLoop P subsets n offset cache st l = .found f c s t →
        CacheSound P c
        ∧ (0 ≤ f → f < (n : Int) → P.test (subsets.getD f.toNat []) = Outcome.FAIL)
        ∧ (f < 0 → P.test ((subsets.eraseIdx (-f - 1).toNat).flatten) = Outcome.FAIL) := by
  intro l
  induction l with
  | nil =>
    intro cache st hs f c s t hf
    simp only [rcLoop] at hf
    injection hf with h1 h2 h3 h4
    subst h1 h2
    exact ⟨hs, fun hge hlt => by omega, fun hneg => by omega⟩
  | cons i rest ih =>
    intro cache st hs f c s t hf
    by_cases h0 : (0 : Int) ≤ i
    · by_cases hin : i.toNat < n
      · simp only [rcLoop, h0, hin, if_true, ite_true] at hf
        cases hl : P.lookup cache (subsets.getD i.toNat []) with
        | some outcome =>
          rw [hl] at hf
          by_cases hfail : outcome = Outcome.FAIL
          · simp only [hfail, if_true, ite_true] at hf
            injection hf with h1 h2 h3 h4
            subst h1 h2
            refine ⟨hs, fun _ _ => ?_, fun hneg => by omega⟩
            rw [hs _ _ hl, hfail]
          · simp only [hfail, if_false, ite_false] at hf
            exact ih cache st hs f c s t hf
        | none =>
          rw [hl] at hf
          cases hst : P.stop st with
          | none => rw [hst] at hf; exact absurd hf (by simp)
          | some st' =>
            rw [hst] at hf
            by_cases hfail : P.test (subsets.getD i.toNat []) = Outcome.FAIL
            · simp only [hfail, if_true, ite_true] at hf
              injection hf with h1 h2 h3 h4
              subst h1 h2
              exact ⟨hfail ▸ hadd _ _ hs, fun _ _ => hfail, fun hneg => by omega⟩
            · simp only [hfail, if_false, ite_false] at hf
              cases hrec : rcLoop P subsets n offset
                  (P.addc cache (subsets.getD i.toNat [])
                    (P.test (subsets.getD i.toNat []))) st' rest with
              | found f2 c2 s2 t2 =>
                rw [hrec] at hf
                injection hf with h1 h2 h3 h4
                subst h1 h2 h3
                exact ih _ _ (hadd _ _ hs) _ _ _ _ hrec
              | stop t2 => rw [hrec] at hf; exact absurd hf (by simp)
              | err t2 => rw [hrec] at hf; exact absurd hf (by simp)
      · simp only [rcLoop, h0, hin, if_true, ite_true, if_false, ite_false] at hf
        exact absurd hf (by simp)
    · by_cases hn0 : n = 0
      · simp only [rcLoop, h0, hn0, if_false, ite_false, if_true, ite_true] at hf
        exact absurd hf (by simp)
      · have hklt : ((-i - 1).toNat + offset) % n < n := Nat.mod_lt _ (by omega)
        simp only [rcLoop, h0, hn0, if_false, ite_false] at hf
        cases hl : P.lookup cache
            ((subsets.eraseIdx (((-i - 1).toNat + offset) % n)).flatten) with
        | some outcome =>
          rw [hl] at hf
          by_cases hfail : outcome = Outcome.FAIL
          · simp only [hfail, if_true, ite_true] at hf
            injection hf with h1 h2 h3 h4
            subst h1 h2
            refine ⟨hs, fun hge _ => by omega, fun hneg => ?_⟩
            have hk : (-(-((((-i - 1).toNat + offset) % n : Nat) : Int) - 1) - 1).toNat
                = ((-i - 1).toNat + offset) % n := by omega
            rw [hk, hs _ _ hl, hfail]
          · simp only [hfail, if_false, ite_false] at hf
            exact ih cache st hs f c s t hf
        | none =>
          rw [hl] at hf
          cases hst : P.stop st with
          | none => rw [hst] at hf; exact absurd hf (by simp)
          | some st' =>
            rw [hst] at hf
            by_cases hfail : P.test
                ((subsets.eraseIdx (((-i - 1).toNat + offset) % n)).flatten) = Outcome.FAIL
            · simp only [hfail, if_true, ite_true] at hf
              injection hf with h1 h2 h3 h4
              subst h1 h2
              refine ⟨hfail ▸ hadd _ _ hs, fun hge _ => by omega, fun hneg => ?_⟩
              have hk : (-(-((((-i - 1).toNat + offset) % n : Nat) : Int) - 1) - 1).toNat
                  = ((-i - 1).toNat + offset) % n := by omega
              rw [hk]
              exact hfail
            · simp only [hfail, if_false, ite_false] at hf
              cases hrec : rcLoop P subsets n offset
                  (P.addc cache ((subsets.eraseIdx (((-i - 1).toNat + offset) % n)).flatten)
                    (P.test ((subsets.eraseIdx (((-i - 1).toNat + offset) % n)).flatten)))
                  st' rest with
              | found f2 c2 s2 t2 =>
                rw [hrec] at hf
                injection hf with h1 h2 h3 h4
                subst h1 h2 h3
                exact ih _ _ (hadd _ _ hs) _ _ _ _ hrec
              | stop t2 => rw [hrec] at hf; exact absurd hf (by simp)
              | err t2 => rw [hrec] at hf; exact absurd hf (by simp)

/-- Through the reduce step, cache soundness is preserved, and any
returned partition flattens to a config on which the tester FAILs. -/
theorem reduceConfig_sound {σ τ : Type} (P : DDParams σ τ) (hadd : AddSound P)
    (subsets : List (List Nat)) (offset : Nat) (cache : σ) (st : τ)
    (hs : CacheSound P cache) :
    ∀ (next : Option (List (List Nat))) (off : Nat) (c : σ) (s : τ) (t : List (List Nat)),
      reduceConfig P subsets offset cache st = .res next off c s t →
      CacheSound P c ∧ ∀ ns, next = some ns → P.test ns.flatten = Outcome.FAIL := by
  intro next off c s t h
  simp only [reduceConfig] at h
  cases hrc : rcLoop P subsets subsets.length offset cache st (P.iter subsets.length) with
  | found f c2 s2 t2 =>
    rw [hrc] at h
    dsimp only at h
    have hsound := rcLoop_sound P hadd subsets subsets.length offset _ _ _ hs _ _ _ _ hrc
    by_cases hneg : f < 0
    · rw [if_pos hneg] at h
      injection h with h1 h2 h3 h4 h5
      subst h1 h3
      refine ⟨hsound.1, ?_⟩
      intro ns hns
      obtain rfl : subsets.eraseIdx (-f - 1).toNat = ns := Option.some.inj hns
      exact hsound.2.2 hneg
    · rw [if_neg hneg] at h
      by_cases hlt : f < (subsets.length : Int)
      · rw [if_pos hlt] at h
        injection h with h1 h2 h3 h4 h5
        subst h1 h3
        refine ⟨hsound.1, ?_⟩
        intro ns hns
        obtain rfl : [subsets.getD f.toNat []] = ns := Option.some.inj hns
        have hx : ([subsets.getD f.toNat []] : List (List Nat)).flatten
            = subsets.getD f.toNat [] := by simp
        rw [hx]
        exact hsound.2.1 (by omega) hlt
      · rw [if_neg hlt] at h
        injection h with h1 h2 h3 h4 h5
        subst h1 h3
        exact ⟨hsound.1, fun ns hns => absurd hns (by simp)⟩
  | stop t2 => rw [hrc] at h; exact absurd h (by simp)
  | err t2 => rw [hrc] at h; exact absurd h (by simp)

/-- The FAIL invariant of the run loop: starting from an interesting
config and a sound cache, the run loop never fails its debug assertion,
finishes only with interesting configs, keeps the cache sound, and every
config it hands to the reduce step is interesting. -/
theorem runLoop_fail_invariant {σ τ : Type} (P : DDParams σ τ) (hadd : AddSound P) :
    ∀ (fuel : Nat) (config : List Nat) (subsets : List (List Nat)) (offset : Nat)
      (changed : Bool) (cache : σ) (st : τ), CacheSound P cache →
      P.test config = Outcome.FAIL →
      (runLoop P fuel config subsets offset changed cache st).res ≠ RunRes.assertFailed
      ∧ (∀ c' ch, (runLoop P fuel config subsets offset changed cache st).res
          = RunRes.finished c' ch → P.test c' = Outcome.FAIL)
      ∧ CacheSound P (runLoop P fuel config subsets offset changed cache st).cache
      ∧ (∀ pr ∈ (runLoop P fuel config subsets offset changed cache st).ptrace,
          P.test pr.1 = Outcome.FAIL) := by
  intro fuel
  induction fuel with
  | zero =>
    intro config subsets offset changed cache st hs htest
    refine ⟨by simp [runLoop], ?_, by simpa [runLoop] using hs, by simp [runLoop]⟩
    intro c' ch h
    simp [runLoop] at h
  | succ fuel ih =>
    intro config subsets offset changed cache st hs htest
    have hne : ¬(P.test config ≠ Outcome.FAIL) := by simp [htest]
    by_cases hc2 : config.length < 2
    · have heq : runLoop P (fuel + 1) config subsets offset changed cache st
          = ⟨.finished config changed, cache, st, [config], []⟩ := by
        simp only [runLoop, hne, hc2, if_true, ite_true, if_false, ite_false]
      rw [heq]
      refine ⟨by simp, ?_, hs, by simp⟩
      intro c' ch h
      injection h with h1 h2
      subst h1
      exact htest
    · cases hrc : reduceConfig P (if subsets.length < 2 then P.split subsets else subsets)
          offset cache st with
      | stop t =>
        have heq : runLoop P (fuel + 1) config subsets offset changed cache st
            = ⟨.stopped config, cache, st, config :: t,
                [(config, if subsets.length < 2 then P.split subsets else subsets)]⟩ := by
          simp only [runLoop, hne, hc2, if_true, ite_true, if_false, ite_false]
          rw [hrc]
        rw [heq]
        refine ⟨by simp, ?_, hs, ?_⟩
        · intro c' ch h
          simp at h
        · intro pr hpr
          simp at hpr
          rw [hpr]
          exact htest
      | err t =>
        have heq : runLoop P (fuel + 1) config subsets offset changed cache st
            = ⟨.errored config, cache, st, config :: t,
                [(config, if subsets.length < 2 then P.split subsets else subsets)]⟩ := by
          simp only [runLoop, hne, hc2, if_true, ite_true, if_false, ite_false]
          rw [hrc]
        rw [heq]
        refine ⟨by simp, ?_, hs, ?_⟩
        · intro c' ch h
          simp at h
        · intro pr hpr
          simp at hpr
          rw [hpr]
          exact htest
      | res next offset' cache' st' t =>
        have hsound := reduceConfig_sound P hadd _ offset cache st hs next offset' cache' st' t hrc
        cases next with
        | some ns =>
          have heq : runLoop P (fuel + 1) config subsets offset changed cache st
              = (let out := runLoop P fuel ns.flatten ns offset' true cache' st'
                 ⟨out.res, out.cache, out.st, config :: t ++ out.ttrace,
                   (config, if subsets.length < 2 then P.split subsets else subsets)
                     :: out.ptrace⟩) := by
            simp only [runLoop, hne, hc2, if_true, ite_true, if_false, ite_false]
            rw [hrc]
          rw [heq]
          have hihyp := ih ns.flatten ns offset' true cache' st' hsound.1
            (hsound.2 ns rfl)
          refine ⟨hihyp.1, hihyp.2.1, hihyp.2.2.1, ?_⟩
          intro pr hpr
          simp only [List.mem_cons] at hpr
          rcases hpr with hpr | hpr
          · rw [hpr]
            exact htest
          · exact hihyp.2.2.2 pr hpr
        | none =>
          by_cases hfin : (if subsets.length < 2 then P.split subsets else subsets).length
              < config.length
          · have heq : runLoop P (fuel + 1) config subsets offset changed cache st
                = (let ns := P.split (if subsets.length < 2 then P.split subsets else subsets)
                   let out := runLoop P fuel config ns
                     (offset' * ns.length
                       / (if subsets.length < 2 then P.split subsets else subsets).length)
                     changed cache' st'
                   ⟨out.res, out.cache, out.st, config :: t ++ out.ttrace,
                     (config, if subsets.length < 2 then P.split subsets else subsets)
                       :: out.ptrace⟩) := by
              simp only [runLoop, hne, hc2, if_true, ite_true, if_false, ite_false]
              rw [hrc]
              simp only [hfin, if_true, ite_true]
            rw [heq]
            have hihyp := ih config
              (P.split (if subsets.length < 2 then P.split subsets else subsets))
              (offset' * (P.split (if subsets.length < 2 then P.split subsets else subsets)).length
                / (if subsets.length < 2 then P.split subsets else subsets).length)
              changed cache' st' hsound.1 htest
            refine ⟨hihyp.1, hihyp.2.1, hihyp.2.2.1, ?_⟩
            intro pr hpr
            simp only [List.mem_cons] at hpr
            rcases hpr with hpr | hpr
            · rw [hpr]
              exact htest
            · exact hihyp.2.2.2 pr hpr
          · have heq : runLoop P (fuel + 1) config subsets offset changed cache st
                = ⟨.finished config changed, cache', st', config :: t,
                    [(config, if subsets.length < 2 then P.split subsets else subsets)]⟩ := by
              simp only [runLoop, hne, hc2, if_true, ite_true, if_false, ite_false]
              rw [hrc]
              simp only [hfin, if_false, ite_false]
            rw [heq]
            refine ⟨by simp, ?_, hsound.1, ?_⟩
            · intro c' ch h
              injection h with h1 h2
              subst h1
              exact htest
            · intro pr hpr
              simp at hpr
              rw [hpr]
              exact htest

/-- The FAIL invariant of the whole engine: starting from an interesting
config and a sound cache, the engine never fails its debug assertion,
returns only interesting configs, keeps the cache sound, and every config
it hands to the reduce step is interesting. -/
theorem ddLoop_fail_invariant {σ τ : Type} (P : DDParams σ τ) (hadd : AddSound P) :
    ∀ (ifuel rfuel : Nat) (config : List Nat) (cache : σ) (st : τ), CacheSound P cache →
      P.test config = Outcome.FAIL →
      (ddLoop P rfuel ifuel config cache st).res ≠ DDRes.assertFailed
      ∧ (∀ c', (ddLoop P rfuel ifuel config cache st).res = DDRes.done c' →
          P.test c' = Outcome.FAIL)
      ∧ CacheSound P (ddLoop P rfuel ifuel config cache st).cache
      ∧ (∀ pr ∈ (ddLoop P rfuel ifuel config cache st).ptrace,
          P.test pr.1 = Outcome.FAIL) := by
  intro ifuel
  induction ifuel with
  | zero =>
    intro rfuel config cache st hs htest
    refine ⟨by simp [ddLoop], ?_, by simpa [ddLoop] using hs, by simp [ddLoop]⟩
    intro c' h
    simp [ddLoop] at h
  | succ ifuel ih =>
    intro rfuel config cache st hs htest
    have hrun := runLoop_fail_invariant P hadd rfuel config [config] 0 false cache st hs htest
    simp only [ddLoop]
    cases hres : (runLoop P rfuel config [config] 0 false cache st).res with
    | finished c' ch =>
      have hc' : P.test c' = Outcome.FAIL := hrun.2.1 c' ch hres
      by_cases hcont : (P.ddStar && ch) = true
      · simp only [hcont, if_true, ite_true]
        have hihyp := ih rfuel c' (runLoop P rfuel config [config] 0 false cache st).cache
          (runLoop P rfuel config [config] 0 false cache st).st hrun.2.2.1 hc'
        refine ⟨hihyp.1, hihyp.2.1, hihyp.2.2.1, ?_⟩
        intro pr hpr
        simp only [List.mem_append] at hpr
        rcases hpr with hpr | hpr
        · exact hrun.2.2.2 pr hpr
        · exact hihyp.2.2.2 pr hpr
      · simp only [hcont, if_false, ite_false]
        refine ⟨by simp, ?_, hrun.2.2.1, hrun.2.2.2⟩
        intro c'' h
        injection h with h1
        subst h1
        exact hc'
    | stopped r =>
      refine ⟨by simp [runResToDD], ?_, hrun.2.2.1, hrun.2.2.2⟩
      intro c'' h
      simp [runResToDD] at h
    | errored r =>
      refine ⟨by simp [runResToDD], ?_, hrun.2.2.1, hrun.2.2.2⟩
      intro c'' h
      simp [runResToDD] at h
    | assertFailed => exact absurd hres hrun.1
    | fuelOut =>
      refine ⟨by simp [runResToDD], ?_, hrun.2.2.1, hrun.2.2.2⟩
      intro c'' h
      simp [runResToDD] at h

/-- C1: for every deterministic tester, over any sound cache, if the engine
starts from an interesting config, then a normal return yields an
interesting config, the debug FAIL-assertion at the top of every run never
fires, and every config the run loop holds when it enters the reduce step
is interesting. -/
theorem dd_reduce_fail {σ τ : Type} (P : DDParams σ τ) (rfuel ifuel : Nat)
    (config : List Nat) (cache : σ) (st : τ)
    (hadd : AddSound P) (hs : CacheSound P cache)
    (htest : P.test config = Outcome.FAIL) :
    (∀ c', (ddLoop P rfuel ifuel config cache st).res = DDRes.done c' →
        P.test c' = Outcome.FAIL)
    ∧ (ddLoop P rfuel ifuel config cache st).res ≠ DDRes.assertFailed
    ∧ (∀ pr ∈ (ddLoop P rfuel ifuel config cache st).ptrace,
        P.test pr.1 = Outcome.FAIL) :=
  ⟨(ddLoop_fail_invariant P hadd ifuel rfuel config cache st hs htest).2.1,
    (ddLoop_fail_invariant P hadd ifuel rfuel config cache st hs htest).1,
    (ddLoop_fail_invariant P hadd ifuel rfuel config cache st hs htest).2.2.2⟩

/-- Witness for C1 at a concrete cache-less engine on two atoms. -/
theorem dd_reduce_fail_witness :
    (∀ c', (ddLoop (noCacheParams alwaysFailTest false) 5 5 [0, 1] () ()).res = DDRes.done c' →
        (noCacheParams alwaysFailTest false).test c' = Outcome.FAIL)
    ∧ (ddLoop (noCacheParams alwaysFailTest false) 5 5 [0, 1] () ()).res ≠ DDRes.assertFailed
    ∧ (∀ pr ∈ (ddLoop (noCacheParams alwaysFailTest false) 5 5 [0, 1] () ()).ptrace,
        (noCacheParams alwaysFailTest false).test pr.1 = Outcome.FAIL) :=
  dd_reduce_fail (noCacheParams alwaysFailTest false) 5 5 [0, 1] () ()
    (fun _ _ _ _ _ hlk => Option.noConfusion hlk)
    (fun _ _ hlk => Option.noConfusion hlk) rfl

/-! ## First-FAIL characterisation of the reduce step: C2 -/

/-- The candidate config denoted by a signed iterator index over `n`
subsets: the indexed subset for `i ≥ 0`, the flattening of the partition
without subset `(-i - 1 + offset) % n` for `i < 0`. -/
def candConfig (subsets : List (List Nat)) (n offset : Nat) (i : Int) : List Nat :=
  if 0 ≤ i then subsets.getD i.toNat []
  else (subsets.eraseIdx (((-i - 1).toNat + offset) % n)).flatten

/-- The first signed index in the iterator's order whose candidate the
tester finds interesting. -/
def firstFail {σ τ : Type} (P : DDParams σ τ) (subsets : List (List Nat))
    (n offset : Nat) : Option Int :=
  (P.iter n).find? (fun i => decide (P.test (candConfig subsets n offset i) = Outcome.FAIL))

/-- The candidate loop halts exactly at the first candidate (in iterator
order) whose outcome is FAIL: with a never-raising stop and a sound cache,
the loop's `fvalue` is the first FAIL-ing signed index (re-encoded for
complements), or `n` when every candidate PASSes. -/
theorem rcLoop_find {σ τ : Type} (P : DDParams σ τ) (hadd : AddSound P)
    (subsets : List (List Nat)) (n offset : Nat) (hn : 1 ≤ n) :
    ∀ (l : List Int) (cache : σ) (st : τ), CacheSound P cache →
      (∀ i ∈ l, 0 ≤ i → i.toNat < n) →
      (∀ u : τ, P.stop u ≠ none) →
      match l.find? (fun i => decide (P.test (candConfig subsets n offset i) = Outcome.FAIL)) with
      | some i =>
        if 0 ≤ i then ∃ c s t, rcLoop P subsets n offset cache st l = .found i c s t
        else ∃ c s t, rcLoop P subsets n offset cache st l
            = .found (-((((-i - 1).toNat + offset) % n : Nat) : Int) - 1) c s t
      | none => ∃ c s t, rcLoop P subsets n offset cache st l = .found (n : Int) c s t := by
  intro l
  induction l with
  | nil =>
    intro cache st hs hr hstop
    simp only [List.find?_nil]
    exact ⟨cache, st, [], rfl⟩
  | cons i rest ih =>
    intro cache st hs hr hstop
    by_cases hp : P.test (candConfig subsets n offset i) = Outcome.FAIL
    · have hfind : (i :: rest).find?
          (fun i => decide (P.test (candConfig subsets n offset i) = Outcome.FAIL)) = some i := by
        simp [List.find?_cons, hp]
      rw [hfind]
      dsimp only
      by_cases h0 : (0 : Int) ≤ i
      · rw [if_pos h0]
        have hin : i.toNat < n := hr i (by simp) h0
        have hcs : candConfig subsets n offset i = subsets.getD i.toNat [] := by
          simp [candConfig, h0]
        rw [hcs] at hp
        cases hl : P.lookup cache (subsets.getD i.toNat []) with
        | some outcome =>
          have hout : outcome = Outcome.FAIL := by rw [← hs _ _ hl]; exact hp
          refine ⟨cache, st, [], ?_⟩
          simp only [rcLoop, h0, hin, if_true, ite_true, hl, hout, eq_self_iff_true]
        | none =>
          cases hst : P.stop st with
          | none => exact absurd hst (hstop st)
          | some st' =>
            refine ⟨P.addc cache (subsets.getD i.toNat [])
              (P.test (subsets.getD i.toNat [])), st', [subsets.getD i.toNat []], ?_⟩
            simp only [rcLoop, h0, hin, if_true, ite_true, hl, hst, hp, eq_self_iff_true,
              if_false, ite_false]
      · rw [if_neg h0]
        have hklt : ((-i - 1).toNat + offset) % n < n := Nat.mod_lt _ (by omega)
        have hcs : candConfig subsets n offset i
            = (subsets.eraseIdx (((-i - 1).toNat + offset) % n)).flatten := by
          simp [candConfig, h0]
        rw [hcs] at hp
        have hn0 : ¬(n = 0) := by omega
        cases hl : P.lookup cache
            ((subsets.eraseIdx (((-i - 1).toNat + offset) % n)).flatten) with
        | some outcome =>
          have hout : outcome = Outcome.FAIL := by rw [← hs _ _ hl]; exact hp
          refine ⟨cache, st, [], ?_⟩
          simp only [rcLoop, h0, hn0, if_true, ite_true, if_false, ite_false, hl, hout,
            eq_self_iff_true]
        | none =>
          cases hst : P.stop st with
          | none => exact absurd hst (hstop st)
          | some st' =>
            refine ⟨P.addc cache ((subsets.eraseIdx (((-i - 1).toNat + offset) % n)).flatten)
              (P.test ((subsets.eraseIdx (((-i - 1).toNat + offset) % n)).flatten)), st',
              [(subsets.eraseIdx (((-i - 1).toNat + offset) % n)).flatten], ?_⟩
            simp only [rcLoop, h0, hn0, if_true, ite_true, if_false, ite_false, hl, hst, hp,
              eq_self_iff_true]
    · have hfind : (i :: rest).find?
          (fun i => decide (P.test (candConfig subsets n offset i) = Outcome.FAIL))
          = rest.find?
            (fun i => decide (P.test (candConfig subsets n offset i) = Outcome.FAIL)) := by
        simp [List.find?_cons, hp]
      rw [hfind]
      have hrrest : ∀ j ∈ rest, 0 ≤ j → j.toNat < n := fun j hj => hr j (by simp [hj])
      by_cases h0 : (0 : Int) ≤ i
      · have hin : i.toNat < n := hr i (by simp) h0
        have hcs : candConfig subsets n offset i = subsets.getD i.toNat [] := by
          simp [candConfig, h0]
        rw [hcs] at hp
        cases hl : P.lookup cache (subsets.getD i.toNat []) with
        | some outcome =>
          have hout : ¬(outcome = Outcome.FAIL) := by
            intro he; exact hp (by rw [hs _ _ hl, he])
          have hstep : rcLoop P subsets n offset cache st (i :: rest)
              = rcLoop P subsets n offset cache st rest := by
            simp only [rcLoop, h0, hin, if_true, ite_true, hl, hout, if_false, ite_false]
          rw [hstep]
          exact ih cache st hs hrrest hstop
        | none =>
          cases hst : P.stop st with
          | none => exact absurd hst (hstop st)
          | some st' =>
            have hstep : rcLoop P subsets n offset cache st (i :: rest)
                = match rcLoop P subsets n offset
                    (P.addc cache (subsets.getD i.toNat [])
                      (P.test (subsets.getD i.toNat []))) st' rest with
                  | .found f c s t => .found f c s (subsets.getD i.toNat [] :: t)
                  | .stop t => .stop (subsets.getD i.toNat [] :: t)
                  | .err t => .err (subsets.getD i.toNat [] :: t) := by
              simp only [rcLoop, h0, hin, if_true, ite_true, if_false, ite_false, hl, hst, hp]
            have IH := ih (P.addc cache (subsets.getD i.toNat [])
              (P.test (subsets.getD i.toNat []))) st' (hadd _ _ hs) hrrest hstop
            cases hfr : rest.find?
                (fun i => decide (P.test (candConfig subsets n offset i) = Outcome.FAIL)) with
            | some j =>
              rw [hfr] at IH
              dsimp only at IH ⊢
              by_cases hj0 : (0 : Int) ≤ j
              · rw [if_pos hj0] at IH ⊢
                obtain ⟨c0, s0, t0, hrec⟩ := IH
                exact ⟨c0, s0, subsets.getD i.toNat [] :: t0, by rw [hstep, hrec]⟩
              · rw [if_neg hj0] at IH ⊢
                obtain ⟨c0, s0, t0, hrec⟩ := IH
                exact ⟨c0, s0, subsets.getD i.toNat [] :: t0, by rw [hstep, hrec]⟩
            | none =>
              rw [hfr] at IH
              dsimp only at IH ⊢
              obtain ⟨c0, s0, t0, hrec⟩ := IH
              exact ⟨c0, s0, subsets.getD i.toNat [] :: t0, by rw [hstep, hrec]⟩
      · have hklt : ((-i - 1).toNat + offset) % n < n := Nat.mod_lt _ (by omega)
        have hn0 : ¬(n = 0) := by omega
        have hcs : candConfig subsets n offset i
            = (subsets.eraseIdx (((-i - 1).toNat + offset) % n)).flatten := by
          simp [candConfig, h0]
        rw [hcs] at hp
        cases hl : P.lookup cache
            ((subsets.eraseIdx (((-i - 1).toNat + offset) % n)).flatten) with
        | some outcome =>
          have hout : ¬(outcome = Outcome.FAIL) := by
            intro he; exact hp (by rw [hs _ _ hl, he])
          have hstep : rcLoop P subsets n offset cache st (i :: rest)
              = rcLoop P subsets n offset cache st rest := by
            simp only [rcLoop, h0, hn0, if_true, ite_true, hl, hout, if_false, ite_false]
          rw [hstep]
          exact ih cache st hs hrrest hstop
        | none =>
          cases hst : P.stop st with
          | none => exact absurd hst (hstop st)
          | some st' =>
            have hstep : rcLoop P subsets n offset cache st (i :: rest)
                = match rcLoop P subsets n offset
                    (P.addc cache ((subsets.eraseIdx (((-i - 1).toNat + offset) % n)).flatten)
                      (P.test ((subsets.eraseIdx (((-i - 1).toNat + offset) % n)).flatten)))
                    st' rest with
                  | .found f c s t =>
                      .found f c s ((subsets.eraseIdx (((-i - 1).toNat + offset) % n)).flatten :: t)
                  | .stop t =>
                      .stop ((subsets.eraseIdx (((-i - 1).toNat + offset) % n)).flatten :: t)
                  | .err t =>
                      .err ((subsets.eraseIdx (((-i - 1).toNat + offset) % n)).flatten :: t) := by
              simp only [rcLoop, h0, hn0, if_true, ite_true, if_false, ite_false, hl, hst, hp]
            have IH := ih (P.addc cache
              ((subsets.eraseIdx (((-i - 1).toNat + offset) % n)).flatten)
              (P.test ((subsets.eraseIdx (((-i - 1).toNat + offset) % n)).flatten)))
              st' (hadd _ _ hs) hrrest hstop
            cases hfr : rest.find?
                (fun i => decide (P.test (candConfig subsets n offset i) = Outcome.FAIL)) with
            | some j =>
              rw [hfr] at IH
              dsimp only at IH ⊢
              by_cases hj0 : (0 : Int) ≤ j
              · rw [if_pos hj0] at IH ⊢
                obtain ⟨c0, s0, t0, hrec⟩ := IH
                exact ⟨c0, s0,
                  (subsets.eraseIdx (((-i - 1).toNat + offset) % n)).flatten :: t0,
                  by rw [hstep, hrec]⟩
              · rw [if_neg hj0] at IH ⊢
                obtain ⟨c0, s0, t0, hrec⟩ := IH
                exact ⟨c0, s0,
                  (subsets.eraseIdx (((-i - 1).toNat + offset) % n)).flatten :: t0,
                  by rw [hstep, hrec]⟩
            | none =>
              rw [hfr] at IH
              dsimp only at IH ⊢
              obtain ⟨c0, s0, t0, hrec⟩ := IH
              exact ⟨c0, s0,
                (subsets.eraseIdx (((-i - 1).toNat + offset) % n)).flatten :: t0,
                by rw [hstep, hrec]⟩

/-- C2: with a sound cache, an in-range iterator and a never-raising stop,
the reduce step stops at the first candidate (in iterator order) whose
outcome is FAIL and returns `([subsets[i]], 0)` when the winner is subset
`i`, `(subsets without k', k')` when the winner is the complement at
`k' = (k + complement_offset) % n`, and `(none, unchanged offset)` when no
candidate FAILs. -/
theorem reduce_config_first_fail {σ τ : Type} (P : DDParams σ τ)
    (subsets : List (List Nat)) (offset : Nat) (cache : σ) (st : τ)
    (hadd : AddSound P) (hs : CacheSound P cache)
    (hn : 1 ≤ subsets.length)
    (hrange : ∀ i ∈ P.iter subsets.length, 0 ≤ i → i.toNat < subsets.length)
    (hstop : ∀ u : τ, P.stop u ≠ none) :
    (∀ i, firstFail P subsets subsets.length offset = some i → 0 ≤ i →
      ∃ c s t, reduceConfig P subsets offset cache st
        = .res (some [subsets.getD i.toNat []]) 0 c s t)
    ∧ (∀ i, firstFail P subsets subsets.length offset = some i → i < 0 →
      ∃ c s t, reduceConfig P subsets offset cache st
        = .res (some (subsets.eraseIdx (((-i - 1).toNat + offset) % subsets.length)))
            ((((-i - 1).toNat + offset) % subsets.length)) c s t)
    ∧ (firstFail P subsets subsets.length offset = none →
      ∃ c s t, reduceConfig P subsets offset cache st = .res none offset c s t) := by
  have H := rcLoop_find P hadd subsets subsets.length offset hn (P.iter subsets.length)
    cache st hs hrange hstop
  refine ⟨?_, ?_, ?_⟩
  · intro i hff h0
    rw [firstFail] at hff
    rw [hff] at H
    dsimp only at H
    rw [if_pos h0] at H
    obtain ⟨c0, s0, t0, hrec⟩ := H
    have hin : i.toNat < subsets.length :=
      hrange i (List.mem_of_find?_eq_some hff) h0
    refine ⟨c0, s0, t0, ?_⟩
    simp only [reduceConfig]
    rw [hrec]
    dsimp only
    rw [if_neg (by omega), if_pos (by omega)]
  · intro i hff hneg
    rw [firstFail] at hff
    rw [hff] at H
    dsimp only at H
    rw [if_neg (by omega)] at H
    obtain ⟨c0, s0, t0, hrec⟩ := H
    have hklt : ((-i - 1).toNat + offset) % subsets.length < subsets.length :=
      Nat.mod_lt _ (by omega)
    refine ⟨c0, s0, t0, ?_⟩
    simp only [reduceConfig]
    rw [hrec]
    dsimp only
    rw [if_pos (by omega)]
    have hdec : (-(-((((-i - 1).toNat + offset) % subsets.length : Nat) : Int) - 1) - 1).toNat
        = ((-i - 1).toNat + offset) % subsets.length := by omega
    rw [hdec]
  · intro hff
    rw [firstFail] at hff
    rw [hff] at H
    obtain ⟨c0, s0, t0, hrec⟩ := H
    refine ⟨c0, s0, t0, ?_⟩
    simp only [reduceConfig]
    rw [hrec]
    dsimp only
    rw [if_neg (by omega), if_neg (by omega)]

/-- Witness for C2 at the concrete three-subset complement hit. -/
theorem reduce_config_first_fail_witness :
    ∃ (c : Unit) (s : Unit) (t : List (List Nat)),
      reduceConfig (noCacheParams lastComplementTest false) [[0], [1], [2]] 0 () ()
        = .res (some (([[0], [1], [2]] : List (List Nat)).eraseIdx
            (((-(-3 : Int) - 1).toNat + 0) % ([[0], [1], [2]] : List (List Nat)).length)))
          (((-(-3 : Int) - 1).toNat + 0) % ([[0], [1], [2]] : List (List Nat)).length) c s t :=
  (reduce_config_first_fail (noCacheParams lastComplementTest false) [[0], [1], [2]] 0 () ()
      (fun _ _ _ _ _ hlk => Option.noConfusion hlk)
      (fun _ _ hlk => Option.noConfusion hlk)
      (by decide)
      (by decide)
      (fun _ h => Option.noConfusion h)).2.1
    (-3) (by decide) (by decide)

/-! ## Structural invariants of the engine: C7 -/

/-- The tester-call trace of a candidate-loop result. -/
def rcTrace {σ τ : Type} : RCFound σ τ → List (List Nat)
  | .found _ _ _ t => t
  | .stop t => t
  | .err t => t

/-- The tester-call trace of a reduce-step result. -/
def rcOutTrace {σ τ : Type} : RCOut σ τ → List (List Nat)
  | .res _ _ _ _ t => t
  | .stop t => t
  | .err t => t

/-- Every config the candidate loop passes to the tester is a sublist of
the flattening of the current partition. -/
theorem rcLoop_trace_sublist {σ τ : Type} (P : DDParams σ τ) (subsets : List (List Nat))
    (n offset : Nat) :
    ∀ (l : List Int) (cache : σ) (st : τ),
      ∀ cfg ∈ rcTrace (rcLoop P subsets n offset cache st l), cfg.Sublist subsets.flatten := by
  intro l
  induction l with
  | nil =>
    intro cache st cfg hcfg
    simp [rcLoop, rcTrace] at hcfg
  | cons i rest ih =>
    intro cache st cfg hcfg
    by_cases h0 : (0 : Int) ≤ i
    · by_cases hin : i.toNat < n
      · have hsub : (subsets.getD i.toNat []).Sublist subsets.flatten := by
          by_cases hin2 : i.toNat < subsets.length
          · rw [List.getD_eq_getElem _ _ hin2]
            exact List.sublist_flatten_of_mem (List.getElem_mem hin2)
          · rw [List.getD_eq_default _ _ (by omega)]
            exact List.nil_sublist _
        simp only [rcLoop, h0, hin, if_true, ite_true] at hcfg
        cases hl : P.lookup cache (subsets.getD i.toNat []) with
        | some outcome =>
          rw [hl] at hcfg
          by_cases hfail : outcome = Outcome.FAIL
          · simp only [hfail, if_true, ite_true, rcTrace] at hcfg
            simp at hcfg
          · simp only [hfail, if_false, ite_false] at hcfg
            exact ih cache st cfg hcfg
        | none =>
          rw [hl] at hcfg
          cases hst : P.stop st with
          | none =>
            rw [hst] at hcfg
            simp [rcTrace] at hcfg
          | some st' =>
            rw [hst] at hcfg
            by_cases hfail : P.test (subsets.getD i.toNat []) = Outcome.FAIL
            · simp only [hfail, if_true, ite_true, rcTrace] at hcfg
              simp only [List.mem_singleton] at hcfg
              rw [hcfg]
              exact hsub
            · simp only [hfail, if_false, ite_false] at hcfg
              cases hrec : rcLoop P subsets n offset
                  (P.addc cache (subsets.getD i.toNat [])
                    (P.test (subsets.getD i.toNat []))) st' rest with
              | found f2 c2 s2 t2 =>
                rw [hrec] at hcfg
                simp only [rcTrace, List.mem_cons] at hcfg
                rcases hcfg with hcfg | hcfg
                · rw [hcfg]; exact hsub
                · have := ih _ st' cfg (by rw [hrec]; exact hcfg)
                  exact this
              | stop t2 =>
                rw [hrec] at hcfg
                simp only [rcTrace, List.mem_cons] at hcfg
                rcases hcfg with hcfg | hcfg
                · rw [hcfg]; exact hsub
                · exact ih _ st' cfg (by rw [hrec]; exact hcfg)
              | err t2 =>
                rw [hrec] at hcfg
                simp only [rcTrace, List.mem_cons] at hcfg
                rcases hcfg with hcfg | hcfg
                · rw [hcfg]; exact hsub
                · exact ih _ st' cfg (by rw [hrec]; exact hcfg)
      · simp only [rcLoop, h0, hin, if_true, ite_true, if_false, ite_false, rcTrace] at hcfg
        simp at hcfg
    · by_cases hn0 : n = 0
      · simp only [rcLoop, h0, hn0, if_false, ite_false, if_true, ite_true, rcTrace] at hcfg
        simp at hcfg
      · have hsub : ((subsets.eraseIdx (((-i - 1).toNat + offset) % n)).flatten).Sublist
            subsets.flatten := eraseIdx_flatten_sublist subsets _
        simp only [rcLoop, h0, hn0, if_false, ite_false] at hcfg
        cases hl : P.lookup cache
            ((subsets.eraseIdx (((-i - 1).toNat + offset) % n)).flatten) with
        | some outcome =>
          rw [hl] at hcfg
          by_cases hfail : outcome = Outcome.FAIL
          · simp only [hfail, if_true, ite_true, rcTrace] at hcfg
            simp at hcfg
          · simp only [hfail, if_false, ite_false] at hcfg
            exact ih cache st cfg hcfg
        | none =>
          rw [hl] at hcfg
          cases hst : P.stop st with
          | none =>
            rw [hst] at hcfg
            simp [rcTrace] at hcfg
          | some st' =>
            rw [hst] at hcfg
            by_cases hfail : P.test
                ((subsets.eraseIdx (((-i - 1).toNat + offset) % n)).flatten) = Outcome.FAIL
            · simp only [hfail, if_true, ite_true, rcTrace] at hcfg
              simp only [List.mem_singleton] at hcfg
              rw [hcfg]
              exact hsub
            · simp only [hfail, if_false, ite_false] at hcfg
              cases hrec : rcLoop P subsets n offset
                  (P.addc cache ((subsets.eraseIdx (((-i - 1).toNat + offset) % n)).flatten)
                    (P.test ((subsets.eraseIdx (((-i - 1).toNat + offset) % n)).flatten)))
                  st' rest with
              | found f2 c2 s2 t2 =>
                rw [hrec] at hcfg
                simp only [rcTrace, List.mem_cons] at hcfg
                rcases hcfg with hcfg | hcfg
                · rw [hcfg]; exact hsub
                · exact ih _ st' cfg (by rw [hrec]; exact hcfg)
              | stop t2 =>
                rw [hrec] at hcfg
                simp only [rcTrace, List.mem_cons] at hcfg
                rcases hcfg with hcfg | hcfg
                · rw [hcfg]; exact hsub
                · exact ih _ st' cfg (by rw [hrec]; exact hcfg)
              | err t2 =>
                rw [hrec] at hcfg
                simp only [rcTrace, List.mem_cons] at hcfg
                rcases hcfg with hcfg | hcfg
                · rw [hcfg]; exact hsub
                · exact ih _ st' cfg (by rw [hrec]; exact hcfg)

/-- The trace of the reduce step is the trace of its candidate loop, and a
returned partition flattens to a sublist of the current flattening while
keeping all chunks non-empty. -/
theorem reduceConfig_struct {σ τ : Type} (P : DDParams σ τ) (subsets : List (List Nat))
    (offset : Nat) (cache : σ) (st : τ) (hne : ∀ s' ∈ subsets, s' ≠ []) :
    (∀ cfg ∈ rcOutTrace (reduceConfig P subsets offset cache st),
      cfg.Sublist subsets.flatten)
    ∧ (∀ ns off c s t, reduceConfig P subsets offset cache st = .res (some ns) off c s t →
      ns.flatten.Sublist subsets.flatten ∧ ∀ s' ∈ ns, s' ≠ []) := by
  constructor
  · intro cfg hcfg
    simp only [reduceConfig] at hcfg
    cases hrc : rcLoop P subsets subsets.length offset cache st (P.iter subsets.length) with
    | found f c2 s2 t2 =>
      rw [hrc] at hcfg
      dsimp only at hcfg
      have htr := rcLoop_trace_sublist P subsets subsets.length offset
        (P.iter subsets.length) cache st cfg
      by_cases hneg : f < 0
      · rw [if_pos hneg] at hcfg
        exact htr (by rw [hrc]; exact hcfg)
      · rw [if_neg hneg] at hcfg
        by_cases hlt : f < (subsets.length : Int)
        · rw [if_pos hlt] at hcfg
          exact htr (by rw [hrc]; exact hcfg)
        · rw [if_neg hlt] at hcfg
          exact htr (by rw [hrc]; exact hcfg)
    | stop t2 =>
      rw [hrc] at hcfg
      exact rcLoop_trace_sublist P subsets subsets.length offset _ cache st cfg
        (by rw [hrc]; exact hcfg)
    | err t2 =>
      rw [hrc] at hcfg
      exact rcLoop_trace_sublist P subsets subsets.length offset _ cache st cfg
        (by rw [hrc]; exact hcfg)
  · intro ns off c s t h
    simp only [reduceConfig] at h
    cases hrc : rcLoop P subsets subsets.length offset cache st (P.iter subsets.length) with
    | found f c2 s2 t2 =>
      rw [hrc] at h
      dsimp only at h
      have hrange := rcLoop_range P subsets subsets.length offset _ _ _ _ _ _ _ hrc
      by_cases hneg : f < 0
      · rw [if_pos hneg] at h
        injection h with h1 h2 h3 h4 h5
        obtain rfl : subsets.eraseIdx (-f - 1).toNat = ns := Option.some.inj h1
        refine ⟨eraseIdx_flatten_sublist subsets _, ?_⟩
        intro s' hs'
        exact hne s' ((List.eraseIdx_sublist subsets _).subset hs')
      · rw [if_neg hneg] at h
        by_cases hlt : f < (subsets.length : Int)
        · rw [if_pos hlt] at h
          injection h with h1 h2 h3 h4 h5
          obtain rfl : [subsets.getD f.toNat []] = ns := Option.some.inj h1
          have hin : f.toNat < subsets.length := by omega
          have hmem : subsets.getD f.toNat [] ∈ subsets := by
            rw [List.getD_eq_getElem _ _ hin]
            exact List.getElem_mem hin
          constructor
          · have hx : ([subsets.getD f.toNat []] : List (List Nat)).flatten
                = subsets.getD f.toNat [] := by simp
            rw [hx]
            exact List.sublist_flatten_of_mem hmem
          · intro s' hs'
            simp only [List.mem_singleton] at hs'
            rw [hs']
            exact hne _ hmem
        · rw [if_neg hlt] at h
          exact absurd h (by simp)
    | stop t2 => rw [hrc] at h; exact absurd h (by simp)
    | err t2 => rw [hrc] at h; exact absurd h (by simp)

/-- Structural invariant of the run loop under the Zeller splitter: every
config passed to the tester is a sublist of the reduction's initial
config, the run loop finishes with sublists of it, and every partition
handed to the reduce step flattens to the current config with all chunks
non-empty. -/
theorem runLoop_struct {σ τ : Type} (P : DDParams σ τ) (nfac : Nat)
    (hsplit : P.split = zellerSplit nfac) (hnfac : 2 ≤ nfac) (init : List Nat) :
    ∀ (fuel : Nat) (config : List Nat) (subsets : List (List Nat)) (offset : Nat)
      (changed : Bool) (cache : σ) (st : τ),
      config.Sublist init →
      subsets.flatten = config →
      (subsets = [config] ∨ ∀ s' ∈ subsets, s' ≠ []) →
      (∀ cfg ∈ (runLoop P fuel config subsets offset changed cache st).ttrace,
        cfg.Sublist init)
      ∧ (∀ c' ch, (runLoop P fuel config subsets offset changed cache st).res
          = RunRes.finished c' ch → c'.Sublist init)
      ∧ (∀ pr ∈ (runLoop P fuel config subsets offset changed cache st).ptrace,
          pr.2.flatten = pr.1 ∧ ∀ s' ∈ pr.2, s' ≠ []) := by
  intro fuel
  induction fuel with
  | zero =>
    intro config subsets offset changed cache st hconf hflat hor
    refine ⟨by simp [runLoop], ?_, by simp [runLoop]⟩
    intro c' ch h
    simp [runLoop] at h
  | succ fuel ih =>
    intro config subsets offset changed cache st hconf hflat hor
    by_cases hassert : P.test config ≠ Outcome.FAIL
    · have heq : runLoop P (fuel + 1) config subsets offset changed cache st
          = ⟨.assertFailed, cache, st, [config], []⟩ := by
        simp only [runLoop]
        rw [if_pos hassert]
      rw [heq]
      refine ⟨?_, ?_, by simp⟩
      · intro cfg hcfg
        simp at hcfg
        rw [hcfg]
        exact hconf
      · intro c' ch h
        simp at h
    · by_cases hc2 : config.length < 2
      · have heq : runLoop P (fuel + 1) config subsets offset changed cache st
            = ⟨.finished config changed, cache, st, [config], []⟩ := by
          simp only [runLoop, hassert, hc2, if_true, ite_true, if_false, ite_false]
        rw [heq]
        refine ⟨?_, ?_, by simp⟩
        · intro cfg hcfg
          simp at hcfg
          rw [hcfg]
          exact hconf
        · intro c' ch h
          injection h with h1 h2
          subst h1
          exact hconf
      · have hsne : subsets ≠ [] := by
          intro hcon
          have hce : config = [] := by rw [← hflat, hcon]; simp
          rw [hce] at hc2
          exact hc2 (by simp)
        have hss1 : (if subsets.length < 2 then P.split subsets else subsets).flatten
            = config := by
          by_cases hlt2 : subsets.length < 2
          · rw [if_pos hlt2, hsplit]
            rw [zellerSplit_flatten nfac subsets (by omega) hsne]
            exact hflat
          · rw [if_neg hlt2]
            exact hflat
        have hne1 : ∀ s' ∈ (if subsets.length < 2 then P.split subsets else subsets),
            s' ≠ [] := by
          by_cases hlt2 : subsets.length < 2
          · rw [if_pos hlt2, hsplit]
            exact zellerSplit_ne_nil nfac subsets
          · rw [if_neg hlt2]
            rcases hor with hor | hor
            · rw [hor] at hlt2
              simp at hlt2
            · exact hor
        have hstruct := reduceConfig_struct P
          (if subsets.length < 2 then P.split subsets else subsets) offset cache st hne1
        cases hrc : reduceConfig P (if subsets.length < 2 then P.split subsets else subsets)
            offset cache st with
        | stop t =>
          have heq : runLoop P (fuel + 1) config subsets offset changed cache st
              = ⟨.stopped config, cache, st, config :: t,
                  [(config, if subsets.length < 2 then P.split subsets else subsets)]⟩ := by
            simp only [runLoop, hassert, hc2, if_true, ite_true, if_false, ite_false]
            rw [hrc]
          rw [heq]
          refine ⟨?_, ?_, ?_⟩
          · intro cfg hcfg
            simp only [List.mem_cons] at hcfg
            rcases hcfg with hcfg | hcfg
            · rw [hcfg]; exact hconf
            · have := hstruct.1 cfg (by rw [hrc]; exact hcfg)
              rw [hss1] at this
              exact this.trans hconf
          · intro c' ch h
            simp at h
          · intro pr hpr
            simp at hpr
            rw [hpr]
            exact ⟨hss1, hne1⟩
        | err t =>
          have heq : runLoop P (fuel + 1) config subsets offset changed cache st
              = ⟨.errored config, cache, st, config :: t,
                  [(config, if subsets.length < 2 then P.split subsets else subsets)]⟩ := by
            simp only [runLoop, hassert, hc2, if_true, ite_true, if_false, ite_false]
            rw [hrc]
          rw [heq]
          refine ⟨?_, ?_, ?_⟩
          · intro cfg hcfg
            simp only [List.mem_cons] at hcfg
            rcases hcfg with hcfg | hcfg
            · rw [hcfg]; exact hconf
            · have := hstruct.1 cfg (by rw [hrc]; exact hcfg)
              rw [hss1] at this
              exact this.trans hconf
          · intro c' ch h
            simp at h
          · intro pr hpr
            simp at hpr
            rw [hpr]
            exact ⟨hss1, hne1⟩
        | res next offset' cache' st' t =>
          cases next with
          | some ns =>
            have hns := hstruct.2 ns offset' cache' st' t hrc
            have hnsconf : ns.flatten.Sublist init := by
              have := hns.1
              rw [hss1] at this
              exact this.trans hconf
            have heq : runLoop P (fuel + 1) config subsets offset changed cache st
                = (let out := runLoop P fuel ns.flatten ns offset' true cache' st'
                   ⟨out.res, out.cache, out.st, config :: t ++ out.ttrace,
                     (config, if subsets.length < 2 then P.split subsets else subsets)
                       :: out.ptrace⟩) := by
              simp only [runLoop, hassert, hc2, if_true, ite_true, if_false, ite_false]
              rw [hrc]
            rw [heq]
            have hihyp := ih ns.flatten ns offset' true cache' st' hnsconf rfl
              (Or.inr hns.2)
            refine ⟨?_, hihyp.2.1, ?_⟩
            · intro cfg hcfg
              simp only [List.cons_append, List.mem_cons, List.mem_append] at hcfg
              rcases hcfg with hcfg | hcfg | hcfg
              · rw [hcfg]; exact hconf
              · have := hstruct.1 cfg (by rw [hrc]; exact hcfg)
                rw [hss1] at this
                exact this.trans hconf
              · exact hihyp.1 cfg hcfg
            · intro pr hpr
              simp only [List.mem_cons] at hpr
              rcases hpr with hpr | hpr
              · rw [hpr]
                exact ⟨hss1, hne1⟩
              · exact hihyp.2.2 pr hpr
          | none =>
            by_cases hfin : (if subsets.length < 2 then P.split subsets else subsets).length
                < config.length
            · have hs1ne : (if subsets.length < 2 then P.split subsets else subsets) ≠ [] := by
                intro hcon
                have hce : config = [] := by rw [← hss1, hcon]; simp
                rw [hce] at hc2
                exact hc2 (by simp)
              have hsp1 := congrFun hsplit (if subsets.length < 2 then P.split subsets else subsets)
              have hns2flat : (P.split
                  (if subsets.length < 2 then P.split subsets else subsets)).flatten
                  = config := by
                rw [hsp1, zellerSplit_flatten nfac _ (by omega) hs1ne]
                exact hss1
              have heq : runLoop P (fuel + 1) config subsets offset changed cache st
                  = (let ns := P.split (if subsets.length < 2 then P.split subsets else subsets)
                     let out := runLoop P fuel config ns
                       (offset' * ns.length
                         / (if subsets.length < 2 then P.split subsets else subsets).length)
                       changed cache' st'
                     ⟨out.res, out.cache, out.st, config :: t ++ out.ttrace,
                       (config, if subsets.length < 2 then P.split subsets else subsets)
                         :: out.ptrace⟩) := by
                simp only [runLoop, hassert, hc2, if_true, ite_true, if_false, ite_false]
                rw [hrc]
                simp only [hfin, if_true, ite_true]
              rw [heq]
              have hihyp := ih config
                (P.split (if subsets.length < 2 then P.split subsets else subsets))
                (offset' * (P.split
                    (if subsets.length < 2 then P.split subsets else subsets)).length
                  / (if subsets.length < 2 then P.split subsets else subsets).length)
                changed cache' st' hconf hns2flat
                (Or.inr (by rw [hsplit]; exact zellerSplit_ne_nil nfac _))
              refine ⟨?_, hihyp.2.1, ?_⟩
              · intro cfg hcfg
                simp only [List.cons_append, List.mem_cons, List.mem_append] at hcfg
                rcases hcfg with hcfg | hcfg | hcfg
                · rw [hcfg]; exact hconf
                · have := hstruct.1 cfg (by rw [hrc]; exact hcfg)
                  rw [hss1] at this
                  exact this.trans hconf
                · exact hihyp.1 cfg hcfg
              · intro pr hpr
                simp only [List.mem_cons] at hpr
                rcases hpr with hpr | hpr
                · rw [hpr]
                  exact ⟨hss1, hne1⟩
                · exact hihyp.2.2 pr hpr
            · have heq : runLoop P (fuel + 1) config subsets offset changed cache st
                  = ⟨.finished config changed, cache', st', config :: t,
                      [(config, if subsets.length < 2 then P.split subsets else subsets)]⟩ := by
                simp only [runLoop, hassert, hc2, if_true, ite_true, if_false, ite_false]
                rw [hrc]
                simp only [hfin, if_false, ite_false]
              rw [heq]
              refine ⟨?_, ?_, ?_⟩
              · intro cfg hcfg
                simp only [List.mem_cons] at hcfg
                rcases hcfg with hcfg | hcfg
                · rw [hcfg]; exact hconf
                · have := hstruct.1 cfg (by rw [hrc]; exact (by simpa using hcfg))
                  rw [hss1] at this
                  exact this.trans hconf
              · intro c' ch h
                injection h with h1 h2
                subst h1
                exact hconf
              · intro pr hpr
                simp at hpr
                rw [hpr]
                exact ⟨hss1, hne1⟩

/-- Structural invariant of the whole engine: traces, results and
partitions are as in `runLoop_struct`, across dd-star iterations. -/
theorem ddLoop_struct {σ τ : Type} (P : DDParams σ τ) (nfac : Nat)
    (hsplit : P.split = zellerSplit nfac) (hnfac : 2 ≤ nfac) (init : List Nat) :
    ∀ (ifuel rfuel : Nat) (config : List Nat) (cache : σ) (st : τ),
      config.Sublist init →
      (∀ cfg ∈ (ddLoop P rfuel ifuel config cache st).ttrace, cfg.Sublist init)
      ∧ (∀ c', (ddLoop P rfuel ifuel config cache st).res = DDRes.done c' →
          c'.Sublist init)
      ∧ (∀ pr ∈ (ddLoop P rfuel ifuel config cache st).ptrace,
          pr.2.flatten = pr.1 ∧ ∀ s' ∈ pr.2, s' ≠ []) := by
  intro ifuel
  induction ifuel with
  | zero =>
    intro rfuel config cache st hconf
    refine ⟨by simp [ddLoop], ?_, by simp [ddLoop]⟩
    intro c' h
    simp [ddLoop] at h
  | succ ifuel ih =>
    intro rfuel config cache st hconf
    have hrun := runLoop_struct P nfac hsplit hnfac init rfuel config [config] 0 false cache st
      hconf (by simp) (Or.inl rfl)
    simp only [ddLoop]
    cases hres : (runLoop P rfuel config [config] 0 false cache st).res with
    | finished c' ch =>
      have hc' : c'.Sublist init := hrun.2.1 c' ch hres
      by_cases hcont : (P.ddStar && ch) = true
      · simp only [hcont, if_true, ite_true]
        have hihyp := ih rfuel c' (runLoop P rfuel config [config] 0 false cache st).cache
          (runLoop P rfuel config [config] 0 false cache st).st hc'
        refine ⟨?_, hihyp.2.1, ?_⟩
        · intro cfg hcfg
          simp only [List.mem_append] at hcfg
          rcases hcfg with hcfg | hcfg
          · exact hrun.1 cfg hcfg
          · exact hihyp.1 cfg hcfg
        · intro pr hpr
          simp only [List.mem_append] at hpr
          rcases hpr with hpr | hpr
          · exact hrun.2.2 pr hpr
          · exact hihyp.2.2 pr hpr
      · simp only [hcont, if_false, ite_false]
        refine ⟨hrun.1, ?_, hrun.2.2⟩
        intro c'' h
        injection h with h1
        subst h1
        exact hc'
    | stopped r =>
      refine ⟨hrun.1, ?_, hrun.2.2⟩
      intro c'' h
      simp [runResToDD] at h
    | errored r =>
      refine ⟨hrun.1, ?_, hrun.2.2⟩
      intro c'' h
      simp [runResToDD] at h
    | assertFailed =>
      refine ⟨hrun.1, ?_, hrun.2.2⟩
      intro c'' h
      simp [runResToDD] at h
    | fuelOut =>
      refine ⟨hrun.1, ?_, hrun.2.2⟩
      intro c'' h
      simp [runResToDD] at h

/-- C7: over a strictly increasing initial config and the Zeller splitter,
every config the engine passes to the tester, and the config it returns,
is a strictly increasing subsequence of the initial config (hence without
duplicates), and every partition handed to the reduce step consists of
non-empty subsets concatenating to the current config in order. -/
theorem configs_sorted_sublist {σ τ : Type} (P : DDParams σ τ) (nfac rfuel ifuel : Nat)
    (init : List Nat) (cache : σ) (st : τ)
    (hsplit : P.split = zellerSplit nfac) (hnfac : 2 ≤ nfac)
    (hsorted : init.Pairwise (· < ·)) :
    (∀ cfg ∈ (ddLoop P rfuel ifuel init cache st).ttrace,
      cfg.Sublist init ∧ cfg.Pairwise (· < ·))
    ∧ (∀ c', (ddLoop P rfuel ifuel init cache st).res = DDRes.done c' →
      c'.Sublist init ∧ c'.Pairwise (· < ·))
    ∧ (∀ pr ∈ (ddLoop P rfuel ifuel init cache st).ptrace,
      pr.2.flatten = pr.1 ∧ ∀ s' ∈ pr.2, s' ≠ []) := by
  have H := ddLoop_struct P nfac hsplit hnfac init ifuel rfuel init cache st
    (List.Sublist.refl init)
  refine ⟨?_, ?_, H.2.2⟩
  · intro cfg hcfg
    have hsub := H.1 cfg hcfg
    exact ⟨hsub, List.Pairwise.sublist hsub hsorted⟩
  · intro c' h
    have hsub := H.2.1 c' h
    exact ⟨hsub, List.Pairwise.sublist hsub hsorted⟩

/-- Witness for C7 at a concrete cache-less engine on three atoms. -/
theorem configs_sorted_sublist_witness :
    (∀ cfg ∈ (ddLoop (noCacheParams lastComplementTest false) 5 5 [0, 1, 2] () ()).ttrace,
      cfg.Sublist [0, 1, 2] ∧ cfg.Pairwise (· < ·))
    ∧ (∀ c', (ddLoop (noCacheParams lastComplementTest false) 5 5 [0, 1, 2] () ()).res
        = DDRes.done c' → c'.Sublist [0, 1, 2] ∧ c'.Pairwise (· < ·))
    ∧ (∀ pr ∈ (ddLoop (noCacheParams lastComplementTest false) 5 5 [0, 1, 2] () ()).ptrace,
      pr.2.flatten = pr.1 ∧ ∀ s' ∈ pr.2, s' ≠ []) :=
  configs_sorted_sublist (noCacheParams lastComplementTest false) 2 5 5 [0, 1, 2] () ()
    rfl (by decide) (by decide)

end Picire
